import Mathlib

/-!
# plsalloc core: a shallow embedding and verification of the spec's claims

This file embeds the core of the plsalloc allocator (blocked deque, central
free list, thread cache, large heap, facade arithmetic) as executable Lean
definitions translated from the C++ sources (`blocked_deque.h`,
`central_free_list.h`, `alloc.h`, `large_heap.h`), and proves or refutes the
frozen claims about them.

Modelling conventions:
* Addresses and sizes (`char*`, `size_t`, `uint32_t`) are `Nat`.
* The blocked deque's `uint64_t` monotonic counters `phead`/`ptail` are
  modelled as unbounded `Int`.  The source uses these counters only through
  the difference `ptail - phead` (the size) and through residues mod 32
  (`& DQBLOCK_MASK`), and both observations are invariant under reduction
  mod 2^64 (32 divides 2^64), so the unbounded-integer model agrees with the
  uint64 machine whenever `0 ≤ ptail - phead < 2^64`, which every physically
  realizable state satisfies.  In particular `merge_front`'s
  `phead -= list.size()`, which may wrap below zero in the machine, is exact
  subtraction here.
* `std::map` is modelled as an association list sorted strictly by key;
  `std::unordered_set` as a duplicate-free list.
* Fallible code paths (assertion failures, `std::abort`, undefined behavior
  on a null block pointer) return `none`.
-/

set_option linter.unusedVariables false
set_option linter.unusedSectionVars false
set_option maxRecDepth 4000

namespace Plsalloc

/-! ## Layout constants (alloc.h, plsalloc.cpp) -/

/-- `PLSALLOC_TRACKED_BASEADDR` (plsalloc.cpp). -/
def trackedBase : Nat := 0x0a8000000000

/-- `kPageBits` (alloc.h): pages are 32 KiB. -/
def kPageBits : Nat := 15

/-- `kPageSize = 1 << kPageBits`. -/
def kPageSize : Nat := 2 ^ kPageBits

/-- `sizeToPages` (alloc.h): `(sz + kPageSize - 1) >> kPageBits`. -/
def sizeToPages (sz : Nat) : Nat := (sz + kPageSize - 1) / kPageSize

/-- `kMaxClasses` (alloc.h). -/
def kMaxClasses : Nat := 256

/-- `sizeToClass` (alloc.h): `(sz + 63) >> 6`. -/
def sizeToClass (sz : Nat) : Nat := (sz + 63) / 64

/-- `classToSize` (alloc.h): `cl << 6`. -/
def classToSize (cl : Nat) : Nat := cl * 64

/-- `isLargeAlloc` (alloc.h): `sizeToClass sz >= kMaxClasses`. -/
def isLargeAlloc (sz : Nat) : Bool := kMaxClasses ≤ sizeToClass sz

/-- `kMaxThreadCacheSize` (alloc.h): 4 MiB donation watermark. -/
def kMaxThreadCacheSize : Nat := 4096 * 1024

/-- `kFetchTargetSize` (alloc.h): 32 KiB bulk-fetch target. -/
def kFetchTargetSize : Nat := 32 * 1024

/-- Tracked-page index of an address (`(p - trackedBase) >> kPageBits`,
see `chunkToClass` and `sysAlloc` in alloc.h). -/
def pageOf (p : Nat) : Nat := (p - trackedBase) / kPageSize

/-- `valid_chunk` (alloc.h lines 348-351): `ptr >= trackedBase && ptr <=
gs.trackedBump`, with the current tracked bump pointer passed explicitly. -/
def valid_chunk (trackedBump : Nat) (p : Nat) : Bool :=
  trackedBase ≤ p && p ≤ trackedBump

/-- The per-class `elemsPerFetch` computed by `__plsalloc_init`
(alloc.h lines 171-175): `kFetchTargetSize / classToSize cl`, a flooring
integer division, then `std::min((uint32_t)DQBLOCK_SIZE, std::max(epf, 2u))`. -/
def bootElemsPerFetch (cl : Nat) : Nat :=
  min 32 (max (kFetchTargetSize / classToSize cl) 2)

/-- The formula the claim states for `elemsPerFetch`: the *ceiling* of
32 KiB over the chunk size, clamped to `[2, 32]` (`clamp(x, lo, hi)` read as
`max lo (min hi x)`). -/
def claimedElemsPerFetchCeil (cl : Nat) : Nat :=
  max 2 (min 32 ((kFetchTargetSize + classToSize cl - 1) / classToSize cl))

/-- The amended formula: the *floor* of 32 KiB over the chunk size, clamped
to `[2, 32]`. -/
def clampedFloorFetch (cl : Nat) : Nat :=
  max 2 (min 32 (kFetchTargetSize / classToSize cl))

/-! ## Blocked deque (blocked_deque.h)

`DQBLOCK_SIZE = 32`.  A deque is a list of blocks (head block first, i.e. the
`prev`-most block, matching the source's `bhead → next → … → btail` order)
plus the two monotonic counters.  Each block has 32 slots; slots outside the
live range `[phead, ptail)` hold junk (modelled by whatever value is there,
initially `default`). -/

/-- Modify the last element of a list (the source's write through `btail`). -/
def modLast (f : β → β) : List β → List β
  | [] => []
  | [b] => [f b]
  | b :: b' :: bs => b :: modLast f (b' :: bs)

/-- A blocked deque: block list (head first) and the `uint64_t` counters
`phead` (first used position) and `ptail` (first free position), modelled as
unbounded integers (see the header comment). -/
structure BDeque (α : Type) where
  blocks : List (List α)
  phead : Int
  ptail : Int
  deriving Repr, DecidableEq

namespace BDeque

variable {α : Type} [Inhabited α]

/-- A freshly allocated block: 32 (junk) slots. -/
def newBlock : List α := List.replicate 32 default

/-- `init()`. -/
def initD : BDeque α := ⟨[], 0, 0⟩

/-- `size()`: `ptail - phead`. -/
def size (d : BDeque α) : Nat := (d.ptail - d.phead).toNat

/-- `empty()`: `!bhead`. -/
def emptyD (d : BDeque α) : Bool := d.blocks.isEmpty

/-- The head-block offset `phead & DQBLOCK_MASK` as a `Nat`. -/
def off (d : BDeque α) : Nat := (d.phead % 32).toNat

/-- `push_front(v)`: expand a head block when `phead` is block-aligned, then
write at slot `(--phead) & DQBLOCK_MASK`. -/
def push_front (d : BDeque α) (v : α) : BDeque α :=
  let bs := if d.phead % 32 = 0 then newBlock :: d.blocks else d.blocks
  { blocks := bs.modifyHead (fun b => b.set (((d.phead - 1) % 32).toNat) v),
    phead := d.phead - 1, ptail := d.ptail }

/-- `push_back(v)`: expand a tail block when `ptail` is block-aligned, then
write at slot `ptail & DQBLOCK_MASK` and increment `ptail`. -/
def push_back (d : BDeque α) (v : α) : BDeque α :=
  let bs := if d.ptail % 32 = 0 then d.blocks ++ [newBlock] else d.blocks
  { blocks := modLast (fun b => b.set ((d.ptail % 32).toNat) v) bs,
    phead := d.phead, ptail := d.ptail + 1 }

/-- `front()`: `bhead->elems[phead & DQBLOCK_MASK]`. -/
def front (d : BDeque α) : α := (d.blocks.headD []).getD d.off default

/-- `back()`: `btail->elems[(ptail-1) & DQBLOCK_MASK]`. -/
def back (d : BDeque α) : α :=
  (d.blocks.getD (d.blocks.length - 1) []).getD (((d.ptail - 1) % 32).toNat) default

/-- `pop_front()`: increment `phead`; on emptying, release the sole block and
reset; when the new `phead` is block-aligned, release the old head block. -/
def pop_front (d : BDeque α) : BDeque α :=
  let h := d.phead + 1
  if h = d.ptail then ⟨[], 0, 0⟩
  else if h % 32 = 0 then ⟨d.blocks.tail, h, d.ptail⟩
  else ⟨d.blocks, h, d.ptail⟩

/-- `pop_back()`: decrement `ptail`; on emptying, release the sole block and
reset; when the new `ptail` is block-aligned, release the old tail block. -/
def pop_back (d : BDeque α) : BDeque α :=
  let t := d.ptail - 1
  if d.phead = t then ⟨[], 0, 0⟩
  else if t % 32 = 0 then ⟨d.blocks.dropLast, d.phead, t⟩
  else ⟨d.blocks, d.phead, t⟩

/-- `dequeue_back()`: read `btail->elems[(--ptail) & DQBLOCK_MASK]`; when the
new `ptail` is block-aligned, reset if `bhead == btail`, else release the
tail block.  Returns the read value and the new state. -/
def dequeue_back (d : BDeque α) : α × BDeque α :=
  let t := d.ptail - 1
  let res := (d.blocks.getD (d.blocks.length - 1) []).getD ((t % 32).toNat) default
  if t % 32 = 0 then
    if d.blocks.length = 1 then (res, ⟨[], 0, 0⟩)
    else (res, ⟨d.blocks.dropLast, d.phead, t⟩)
  else (res, ⟨d.blocks, d.phead, t⟩)

/-- `splice_front(blocks)`: split off the first `b` blocks as a new deque
with `phead = 0, ptail = 32·b`; the remainder's `phead` advances by `32·b`.
Returns `(spliced, remainder)`. -/
def splice_front (d : BDeque α) (b : Nat) : BDeque α × BDeque α :=
  (⟨d.blocks.take b, 0, 32 * b⟩,
   ⟨d.blocks.drop b, d.phead + 32 * b, d.ptail⟩)

/-- `merge_front(list)`: if `self` is empty take `list` over wholesale, else
prepend `list`'s blocks and subtract `list.size()` from `phead`. -/
def merge_front (d other : BDeque α) : BDeque α :=
  if d.blocks.isEmpty then other
  else ⟨other.blocks ++ d.blocks, d.phead - (other.ptail - other.phead), d.ptail⟩

/-- `steal_front(dst)`: move the head block to the (empty) destination with
counters `(0, 32)`; if that emptied `self`, reset it, else advance `phead` by
a block.  Returns `(dst, self)`. -/
def steal_front (d : BDeque α) : BDeque α × BDeque α :=
  (⟨d.blocks.take 1, 0, 32⟩,
   if d.blocks.length = 1 then ⟨[], 0, 0⟩
   else ⟨d.blocks.drop 1, d.phead + 32, d.ptail⟩)

/-- Structural well-formedness: counters in order, every block has 32 slots,
the block count matches the counters (`⌈(off + size)/32⌉` blocks), and an
empty block list means fully reset counters.  Every state the source reaches
through its own operations satisfies this. -/
def WF (d : BDeque α) : Prop :=
  d.phead ≤ d.ptail ∧
  (∀ b ∈ d.blocks, b.length = 32) ∧
  (d.blocks.length : Int) = (d.phead % 32 + (d.ptail - d.phead) + 31) / 32 ∧
  (d.blocks = [] → d.phead = 0 ∧ d.ptail = 0)

/-- The element at logical index `i` (0 = front): block `(off + i) / 32`,
slot `(off + i) % 32`. -/
def nth (d : BDeque α) (i : Nat) : α :=
  (d.blocks.getD ((d.off + i) / 32) []).getD ((d.off + i) % 32) default

/-- The live contents, front first. -/
def toList (d : BDeque α) : List α := (List.range d.size).map d.nth

/-- All live elements satisfy `P`. -/
def DAll (P : α → Prop) (d : BDeque α) : Prop := ∀ i, i < d.size → P (d.nth i)

end BDeque

/-- The deque state used to exhibit the `dequeue_back` / `pop_back`
divergence: `push_back 7; push_back 8; pop_front`, i.e. a single block
holding one live element (the value 8) with `phead = 1`, `ptail = 2`. -/
def c3State : BDeque Nat :=
  (((BDeque.initD (α := Nat)).push_back 7).push_back 8).pop_front

/-! ## Central free list (central_free_list.h)

Chunk addresses are `Nat`.  The mutex and the `CFDEBUG` macros have no
state effect and are elided; lock/unlock placement is irrelevant to the
sequential functional model. -/

/-- The state `sysAlloc` reads and writes: the tracked bump pointer and the
sizemap (a byte per tracked page).  `trackedEnd`/`sizemapBump`/`sizemapEnd`
only track mmap progress and never influence returned values, so they are
not modelled. -/
structure RegionState where
  trackedBump : Nat
  sizemap : Nat → Nat

/-- `sysAlloc(chunkSize)` (alloc.h lines 192-240): reserve
`max(32, ⌈chunkSize/32KiB⌉)` pages at the tracked bump; for small chunk
sizes stamp the sizemap entries of the reserved pages with the chunk's
class.  Returns the `(start, end)` span and the new region state. -/
def sysAllocM (rs : RegionState) (chunkSize : Nat) : (Nat × Nat) × RegionState :=
  let pages := max 32 (sizeToPages chunkSize)
  let allocSize := pages * kPageSize
  let alloc := rs.trackedBump
  let base := (alloc - trackedBase) / kPageSize
  let smap :=
    if isLargeAlloc chunkSize then rs.sizemap
    else fun pg =>
      if base ≤ pg ∧ pg < base + pages then sizeToClass chunkSize else rs.sizemap pg
  ((alloc, alloc + allocSize),
   { trackedBump := alloc + allocSize, sizemap := smap })

/-- `CentralFreeList` fields (the mutex carries no state). -/
structure CFL where
  chunkSize : Nat
  elemsPerFetch : Nat
  freeChunks : BDeque Nat
  bumpStart : Nat
  bumpEnd : Nat

/-- The element-by-element transfer loop shared by `bulkAlloc`'s piecewise
case and `bulkDealloc`'s residual case:
`k` times `dst.push_back(src.dequeue_back())`. -/
def moveBack (dst src : BDeque Nat) : Nat → BDeque Nat × BDeque Nat
  | 0 => (dst, src)
  | k + 1 => moveBack (dst.push_back src.dequeue_back.1) src.dequeue_back.2 k

/-- Push `k` fresh chunks `start, start+cs, …` (the fanout loop of
`bulkAlloc`'s bump path). -/
def pushRange (dst : BDeque Nat) (start cs : Nat) : Nat → BDeque Nat
  | 0 => dst
  | k + 1 => pushRange (dst.push_back start) (start + cs) cs k

/-- `CentralFreeList::alloc` (central_free_list.h lines 51-60). -/
def CFL.allocOne (cf : CFL) (rs : RegionState) : Nat × CFL × RegionState :=
  if cf.freeChunks.emptyD = false then
    (cf.freeChunks.dequeue_back.1,
     { cf with freeChunks := cf.freeChunks.dequeue_back.2 }, rs)
  else
    let cf1 :=
      if cf.bumpEnd < cf.bumpStart + cf.chunkSize then
        { cf with bumpStart := (sysAllocM rs cf.chunkSize).1.1,
                  bumpEnd := (sysAllocM rs cf.chunkSize).1.2 }
      else cf
    let rs1 :=
      if cf.bumpEnd < cf.bumpStart + cf.chunkSize then (sysAllocM rs cf.chunkSize).2
      else rs
    (cf1.bumpStart, { cf1 with bumpStart := cf1.bumpStart + cf1.chunkSize }, rs1)

/-- `CentralFreeList::dealloc` (central_free_list.h lines 62-65). -/
def CFL.deallocOne (cf : CFL) (p : Nat) : CFL :=
  { cf with freeChunks := cf.freeChunks.push_back p }

/-- `CentralFreeList::bulkAlloc(dstList)` (central_free_list.h lines
67-111): whole-block steal when a full fetch is recycled and
`elemsPerFetch ≥ 32`; piecewise move when a full fetch is recycled;
otherwise carve `chunkSize·elemsPerFetch` bytes from the bump window
(extending it via `sysAlloc` first if needed), capped at the mapped bytes.
Returns `(centralList, dstList, regionState)`. -/
def CFL.bulkAlloc (cf : CFL) (dst : BDeque Nat) (rs : RegionState) :
    CFL × BDeque Nat × RegionState :=
  if cf.elemsPerFetch ≤ cf.freeChunks.size then
    if 32 ≤ cf.elemsPerFetch then
      ({ cf with freeChunks := cf.freeChunks.steal_front.2 },
       cf.freeChunks.steal_front.1, rs)
    else
      ({ cf with freeChunks := (moveBack dst cf.freeChunks cf.elemsPerFetch).2 },
       (moveBack dst cf.freeChunks cf.elemsPerFetch).1, rs)
  else
    let cf1 :=
      if cf.bumpEnd < cf.bumpStart + cf.chunkSize then
        { cf with bumpStart := (sysAllocM rs cf.chunkSize).1.1,
                  bumpEnd := (sysAllocM rs cf.chunkSize).1.2 }
      else cf
    let rs1 :=
      if cf.bumpEnd < cf.bumpStart + cf.chunkSize then (sysAllocM rs cf.chunkSize).2
      else rs
    let start := cf1.bumpStart
    let wend := cf1.bumpEnd
    let fillCount :=
      if cf1.chunkSize * cf1.elemsPerFetch < wend - start then cf1.elemsPerFetch
      else (wend - start) / cf1.chunkSize
    ({ cf1 with bumpStart := start + cf1.chunkSize * cf1.elemsPerFetch },
     pushRange dst start cf1.chunkSize fillCount, rs1)

/-- `CentralFreeList::bulkDealloc(srcList, elems)` (central_free_list.h
lines 113-135): for `elems ≥ 32`, splice `elems / 32` whole blocks off the
source front and merge them to the front of `freeChunks`; otherwise move
`elems` single elements back-to-back. -/
def CFL.bulkDealloc (cf : CFL) (src : BDeque Nat) (elems : Nat) :
    CFL × BDeque Nat :=
  if 32 ≤ elems then
    let blocks := elems / 32
    let (spliced, src') := src.splice_front blocks
    ({ cf with freeChunks := cf.freeChunks.merge_front spliced }, src')
  else
    let (fc, src') := moveBack cf.freeChunks src elems
    ({ cf with freeChunks := fc }, src')

/-- A concrete source deque for exercising `bulkDealloc`: two full blocks,
`phead = 0`, `ptail = 64`. -/
def c1Src : BDeque Nat :=
  ⟨[List.replicate 32 0, List.replicate 32 0], 0, 64⟩

/-- A concrete central free list with an empty recycled deque. -/
def c1Cfl : CFL :=
  ⟨64, 2, BDeque.initD, 0, 0⟩

/-! ## Thread cache and the small-allocation path (alloc.h)

The active configuration: `USE_THREADCACHE = 1`, `BULK_ALLOC = 1`,
`CENTRAL_FREE_LIST_BANKS = 1` (plain `CentralFreeList`). -/

/-- `ThreadCache`: 256 class deques plus the running byte counter. -/
structure TCache where
  cacheSize : Nat
  classLists : Nat → BDeque Nat

/-- The state the small path touches: the central free lists, one thread's
cache, and the region state (tracked bump + sizemap). -/
structure GState where
  central : Nat → CFL
  tc : TCache
  rs : RegionState

/-- The refill step of `ThreadCache::alloc(cl)` (alloc.h lines 250-255,
`BULK_ALLOC` path): when the class deque is empty, `bulkAlloc` into it and
add the fetched bytes to `cacheSize`. -/
def tcRefill (g : GState) (cl : Nat) : GState :=
  if (g.tc.classLists cl).emptyD then
    { central := Function.update g.central cl
        ((g.central cl).bulkAlloc (g.tc.classLists cl) g.rs).1,
      tc := { cacheSize := g.tc.cacheSize + classToSize cl
                * ((g.central cl).bulkAlloc (g.tc.classLists cl) g.rs).2.1.size,
              classLists := Function.update g.tc.classLists cl
                ((g.central cl).bulkAlloc (g.tc.classLists cl) g.rs).2.1 },
      rs := ((g.central cl).bulkAlloc (g.tc.classLists cl) g.rs).2.2 }
  else g

/-- `ThreadCache::alloc(cl)` (alloc.h lines 248-268): refill if empty, then
`dequeue_back` and subtract one chunk.  Returns the chunk and the new
state. -/
def tcAlloc (g : GState) (cl : Nat) : Nat × GState :=
  (((tcRefill g cl).tc.classLists cl).dequeue_back.1,
   { tcRefill g cl with tc :=
      { cacheSize := (tcRefill g cl).tc.cacheSize - classToSize cl,
        classLists := Function.update (tcRefill g cl).tc.classLists cl
          ((tcRefill g cl).tc.classLists cl).dequeue_back.2 } })

/-- One iteration of the donation loop of `ThreadCache::dealloc` (alloc.h
lines 284-291): donate `⌈size/2⌉` elements of class `cl` to the central
list and subtract the bytes actually removed. -/
def donateClass (g : GState) (cl : Nat) : GState :=
  let elems := (g.tc.classLists cl).size
  if elems = 0 then g
  else
    let elemsToDonate := (elems + 1) / 2
    let r := (g.central cl).bulkDealloc (g.tc.classLists cl) elemsToDonate
    { g with
      central := Function.update g.central cl r.1,
      tc := { cacheSize :=
                g.tc.cacheSize - (elems - r.2.size) * classToSize cl,
              classLists := Function.update g.tc.classLists cl r.2 } }

/-- `ThreadCache::dealloc(p, cl)` (alloc.h lines 270-294): push the chunk,
add its bytes, and run a donation pass over classes `1..255` when the cache
exceeds the 4 MiB watermark. -/
def tcDealloc (g : GState) (p : Nat) (cl : Nat) : GState :=
  let g := { g with
    tc := { cacheSize := g.tc.cacheSize + classToSize cl,
            classLists := Function.update g.tc.classLists cl
              ((g.tc.classLists cl).push_back p) } }
  if kMaxThreadCacheSize < g.tc.cacheSize then
    (List.range' 1 (kMaxClasses - 1)).foldl donateClass g
  else g

/-- Which tier serves a `do_alloc` request. -/
inductive AllocRoute where
  | small (cl : Nat)
  | large (sz : Nat)
  deriving DecidableEq, Repr

/-- The routing decision of `do_alloc` (alloc.h lines 301-322): small path
with class `sizeToClass n` unless `isLargeAlloc`, else the large heap with
the size rounded up to a 64-byte multiple. -/
def do_alloc_route (n : Nat) : AllocRoute :=
  if isLargeAlloc n = false then AllocRoute.small (sizeToClass n)
  else AllocRoute.large ((n + 63) / 64 * 64)

/-- The small path of `do_alloc(n)`: the current thread cache's `alloc` on
class `sizeToClass n`. -/
def do_alloc_small (g : GState) (n : Nat) : Nat × GState :=
  tcAlloc g (sizeToClass n)

/-- A pointer that the small path may hold in a class-`cl` structure: its
page is stamped `cl` and it lies inside the reserved tracked range. -/
def PtrOKr (rs : RegionState) (cl : Nat) (a : Nat) : Prop :=
  rs.sizemap (pageOf a) = cl ∧ trackedBase ≤ a ∧ a < rs.trackedBump

/-- `PtrOKr` on a full small-path state. -/
def PtrOK (g : GState) (cl : Nat) (a : Nat) : Prop := PtrOKr g.rs cl a

/-- Region sanity: the tracked bump never retreats below the base and the
reserved range is page-granular (`sysAlloc` hands out whole pages). -/
def RegOK (rs : RegionState) : Prop :=
  trackedBase ≤ rs.trackedBump ∧ kPageSize ∣ (rs.trackedBump - trackedBase)

/-- What a region transition (a `sysAlloc`) guarantees: the bump only grows
and the sizemap is stable on every page of the previously reserved range. -/
def RegLe (rs rs' : RegionState) : Prop :=
  rs.trackedBump ≤ rs'.trackedBump ∧
    ∀ a, trackedBase ≤ a → a < rs.trackedBump →
      rs'.sizemap (pageOf a) = rs.sizemap (pageOf a)

/-- Invariant of one `CentralFreeList` of class `cl`: the recycled deque is
well-formed with block-aligned `phead` and holds only `PtrOKr` chunks; the
constant fields are the bootstrap values; every address of the bump window
is stamped `cl` and reserved.  (`bumpStart` may overshoot `bumpEnd` after a
partial fill — central_free_list.h line 98 — so no ordering is imposed.) -/
def CFLOK (rs : RegionState) (cl : Nat) (cf : CFL) : Prop :=
  BDeque.WF cf.freeChunks ∧
    cf.freeChunks.phead % 32 = 0 ∧
    BDeque.DAll (PtrOKr rs cl) cf.freeChunks ∧
    cf.chunkSize = classToSize cl ∧
    cf.elemsPerFetch = bootElemsPerFetch cl ∧
    (∀ x, cf.bumpStart ≤ x → x < cf.bumpEnd → PtrOKr rs cl x)

/-- Per-class invariant: the thread-cache deque is well-formed with
block-aligned `phead` and holds only `PtrOKr` chunks, and the central free
list satisfies `CFLOK`. -/
def ClassInv (g : GState) (cl : Nat) : Prop :=
  BDeque.WF (g.tc.classLists cl) ∧
    (g.tc.classLists cl).phead % 32 = 0 ∧
    BDeque.DAll (PtrOKr g.rs cl) (g.tc.classLists cl) ∧
    CFLOK g.rs cl (g.central cl)

/-- The global small-path invariant: region sanity, the C8 byte-count
equation, and every class's `ClassInv`. -/
def GInv (g : GState) : Prop :=
  RegOK g.rs ∧
    g.tc.cacheSize = ∑ c ∈ Finset.range kMaxClasses,
      (g.tc.classLists c).size * classToSize c ∧
    ∀ cl, 1 ≤ cl → cl ≤ 255 → ClassInv g cl

/-- The post-bootstrap state (`__plsalloc_init`): all deques empty, zeroed
sizemap, `trackedBump = trackedBase`, central lists constructed with
`(classToSize cl, elemsPerFetch)` and null bump windows. -/
def initGState : GState :=
  { central := fun cl =>
      if 1 ≤ cl ∧ cl < kMaxClasses then
        ⟨classToSize cl, bootElemsPerFetch cl, BDeque.initD, 0, 0⟩
      else ⟨0, 0, BDeque.initD, 0, 0⟩,
    tc := ⟨0, fun _ => BDeque.initD⟩,
    rs := ⟨trackedBase, fun _ => 0⟩ }

/-- States reachable from bootstrap through the small path: this thread's
`do_alloc`/`do_dealloc` small operations, and the interference other
threads can create on the shared central lists and region state — their
bulk refills (`extBulkAlloc`), their donations of whole spliced blocks
(`extMerge`), and single-chunk returns (`extPush`).  The `deallocSmall` and
`extPush`/`extMerge` guards record `do_dealloc`'s contract: the freed
pointer was previously returned by `do_alloc` (so it lies in the reserved
range and its page class is its list's class). -/
inductive GReach : GState → Prop where
  | init : GReach initGState
  | allocSmall (g : GState) (n : Nat) : GReach g → 1 ≤ n →
      isLargeAlloc n = false → GReach (do_alloc_small g n).2
  | deallocSmall (g : GState) (p cl : Nat) : GReach g →
      g.rs.sizemap (pageOf p) = cl → 1 ≤ cl → cl ≤ 255 →
      trackedBase ≤ p → p < g.rs.trackedBump →
      GReach (tcDealloc g p cl)
  | extBulkAlloc (g : GState) (cl : Nat) : GReach g → 1 ≤ cl → cl ≤ 255 →
      GReach { g with
        central := Function.update g.central cl
          ((g.central cl).bulkAlloc BDeque.initD g.rs).1,
        rs := ((g.central cl).bulkAlloc BDeque.initD g.rs).2.2 }
  | extMerge (g : GState) (cl b : Nat) (d : BDeque Nat) : GReach g →
      1 ≤ cl → cl ≤ 255 → BDeque.WF d → d.phead = 0 → d.ptail = 32 * b →
      1 ≤ b → BDeque.DAll (PtrOK g cl) d →
      GReach { g with
        central := Function.update g.central cl
          { g.central cl with
            freeChunks := ((g.central cl).freeChunks).merge_front d } }
  | extPush (g : GState) (cl p : Nat) : GReach g → 1 ≤ cl → cl ≤ 255 →
      g.rs.sizemap (pageOf p) = cl → trackedBase ≤ p → p < g.rs.trackedBump →
      GReach { g with
        central := Function.update g.central cl ((g.central cl).deallocOne p) }

/-! ## Sorted association lists (the large heap's `std::map`s)

`std::map<K, V>` is modelled as an association list sorted strictly by key.
`mfind`/`minsert`/`merase` are `find`/`operator[]=`/`erase`;
`prevEntry`/`nextEntry` are `std::prev`/`std::next` of the entry at a given
key; `lowerBoundE` is `lower_bound`. -/

/-- `map.find(k)`. -/
def mfind : List (Nat × β) → Nat → Option β
  | [], _ => none
  | e :: es, k => if e.1 = k then some e.2 else mfind es k

/-- `map[k] = v` (insert or assign), keeping the list sorted. -/
def minsert : List (Nat × β) → Nat → β → List (Nat × β)
  | [], k, v => [(k, v)]
  | e :: es, k, v =>
    if k < e.1 then (k, v) :: e :: es
    else if e.1 = k then (k, v) :: es
    else e :: minsert es k v

/-- `map.erase(k)`. -/
def merase : List (Nat × β) → Nat → List (Nat × β)
  | [], _ => []
  | e :: es, k => if e.1 = k then es else e :: merase es k

/-- `std::prev` of the entry at key `k` (on a sorted list: the entry with
the largest key `< k`), or `none` when the entry is the first. -/
def prevEntry : List (Nat × β) → Nat → Option (Nat × β)
  | [], _ => none
  | e :: es, k => if e.1 < k then some ((prevEntry es k).getD e) else none

/-- `std::next` of the entry at key `k` (on a sorted list: the entry with
the smallest key `> k`), or `none` at the end. -/
def nextEntry : List (Nat × β) → Nat → Option (Nat × β)
  | [], _ => none
  | e :: es, k => if k < e.1 then some e else nextEntry es k

/-- `map.lower_bound(k)`: first entry with key `≥ k`. -/
def lowerBoundE : List (Nat × β) → Nat → Option (Nat × β)
  | [], _ => none
  | e :: es, k => if k ≤ e.1 then some e else lowerBoundE es k

/-! ## Large heap (large_heap.h)

Chunk start addresses and sizes are `Nat`.  `freeChunkSets` maps a size to
the unordered set of free chunk starts of that size; the sets are
duplicate-free lists, and `alloc`'s `*chunkSet.begin()` (an unspecified
element of the `unordered_set`) is modelled by an oracle index `pick` into
the bucket, so the theorems cover every possible iteration order. -/

/-- `freeChunkSets`. -/
abbrev FreeSets := List (Nat × List Nat)

/-- The test `freeChunkSets.find(s)` + `chunkSet.find(a)` used to decide
whether a neighbouring chunk is free. -/
def isFreeAt (f : FreeSets) (s : Nat) (a : Nat) : Bool :=
  match mfind f s with
  | none => false
  | some bkt => bkt.contains a

/-- Erase `a` from `freeChunkSets[s]`, deleting the bucket if it empties. -/
def fcsErase (f : FreeSets) (s : Nat) (a : Nat) : FreeSets :=
  match mfind f s with
  | none => f
  | some bkt =>
    let b' := bkt.erase a
    if b' = [] then merase f s else minsert f s b'

/-- Insert `a` into `freeChunkSets[s]`, creating the bucket if absent
(`unordered_set::insert` leaves a present element alone). -/
def fcsInsert (f : FreeSets) (s : Nat) (a : Nat) : FreeSets :=
  match mfind f s with
  | none => minsert f s [a]
  | some bkt => minsert f s (if a ∈ bkt then bkt else bkt ++ [a])

/-- The large heap's two indexes plus the tracked bump pointer its
`sysAlloc` calls advance. -/
structure LHState where
  chunkSizes : List (Nat × Nat)
  freeChunkSets : FreeSets
  bump : Nat
  deriving DecidableEq

/-- The merge-with-previous step of `unlocked_dealloc` (large_heap.h lines
110-140): if the predecessor entry ends exactly at `p` and is free, take it
over.  Returns the (possibly extended) chunk start, its size, and the new
state. -/
def mergePrev (st : LHState) (p sz : Nat) : Nat × Nat × LHState :=
  match prevEntry st.chunkSizes p with
  | some pe =>
    if pe.1 + pe.2 = p ∧ isFreeAt st.freeChunkSets pe.2 pe.1 = true then
      (pe.1, pe.2 + sz,
       { st with
          chunkSizes := minsert (merase st.chunkSizes p) pe.1 (pe.2 + sz),
          freeChunkSets := fcsErase st.freeChunkSets pe.2 pe.1 })
    else (p, sz, st)
  | none => (p, sz, st)

/-- The merge-with-next step of `unlocked_dealloc` (large_heap.h lines
142-169): if the successor entry starts exactly at `c + sz` and is free,
absorb it. -/
def mergeNext (st : LHState) (c sz : Nat) : Nat × LHState :=
  match nextEntry st.chunkSizes c with
  | some ne =>
    if c + sz = ne.1 ∧ isFreeAt st.freeChunkSets ne.2 ne.1 = true then
      (sz + ne.2,
       { st with
          chunkSizes := minsert (merase st.chunkSizes ne.1) c (sz + ne.2),
          freeChunkSets := fcsErase st.freeChunkSets ne.2 ne.1 })
    else (sz, st)
  | none => (sz, st)

/-- `LargeHeap::unlocked_dealloc(p)` (large_heap.h lines 100-181): `none`
models the fatal "not a tracked chunk" abort. -/
def unlocked_dealloc (st : LHState) (p : Nat) : Option LHState :=
  match mfind st.chunkSizes p with
  | none => none
  | some sz =>
    let r1 := mergePrev st p sz
    let r2 := mergeNext r1.2.2 r1.1 r1.2.1
    some { r2.2 with freeChunkSets := fcsInsert r2.2.freeChunkSets r2.1 r1.1 }

/-- `LargeHeap::dealloc` (lock + `unlocked_dealloc`). -/
def LH_dealloc (st : LHState) (p : Nat) : Option LHState := unlocked_dealloc st p

/-- `LargeHeap::alloc(chunkSize)` (large_heap.h lines 51-81): best-fit from
`freeChunkSets`, else a fresh `sysAlloc` span; record the chunk; normalize
any residual through `unlocked_dealloc`.  `pick` resolves the unspecified
`unordered_set` iteration order.  Returns the new state and the chunk. -/
def LH_alloc (st : LHState) (sz : Nat) (pick : Nat) : Option (LHState × Nat) :=
  let r :=
    match lowerBoundE st.freeChunkSets sz with
    | none =>
      let allocSize := max 32 (sizeToPages sz) * kPageSize
      (st.bump, st.bump + allocSize, { st with bump := st.bump + allocSize })
    | some e =>
      let start := e.2.getD (pick % e.2.length) 0
      (start, start + e.1,
       { st with freeChunkSets := fcsErase st.freeChunkSets e.1 start })
  let start := r.1
  let wend := r.2.1
  let st1 := r.2.2
  let st2 := { st1 with chunkSizes := minsert st1.chunkSizes start sz }
  let left := start + sz
  let remaining := wend - left
  if remaining ≠ 0 then
    match unlocked_dealloc
        { st2 with chunkSizes := minsert st2.chunkSizes left remaining } left with
    | none => none
    | some st3 => some (st3, start)
  else some (st2, start)

/-- `LargeHeap::chunkToSize_noassert(p)` (large_heap.h lines 92-97). -/
def chunkToSize_noassert (st : LHState) (p : Nat) : Nat :=
  match mfind st.chunkSizes p with
  | none => 0
  | some s => s

/-- `chunk_size(p)` (alloc.h lines 343-346): `sizemap` class if non-zero,
else the large heap's no-assert lookup. -/
def chunk_size (smap : Nat → Nat) (lh : LHState) (p : Nat) : Nat :=
  let cl := smap (pageOf p)
  if cl ≠ 0 then classToSize cl else chunkToSize_noassert lh p

/-- States of the large heap reachable by any sequence of `alloc` and
`dealloc` calls (with `dealloc` applied only to recorded chunk starts —
otherwise the source aborts) from the pristine post-bootstrap state. -/
inductive LHReach : LHState → Prop where
  | init : LHReach ⟨[], [], trackedBase⟩
  | alloc (st st' : LHState) (sz pick q : Nat) : LHReach st → 0 < sz →
      LH_alloc st sz pick = some (st', q) → LHReach st'
  | dealloc (st st' : LHState) (p : Nat) : LHReach st →
      LH_dealloc st p = some st' → LHReach st'

/-- An address is free: it lies in some bucket of `freeChunkSets`. -/
abbrev freeAddr (f : FreeSets) (a : Nat) : Prop := ∃ e ∈ f, a ∈ e.2

/-- Keys strictly sorted. -/
abbrev SortedKeys (m : List (Nat × β)) : Prop := m.Pairwise fun x y => x.1 < y.1

/-- Chunks are disjoint and in address order (invariant I2). -/
abbrev Sep (m : List (Nat × Nat)) : Prop := m.Pairwise fun x y => x.1 + x.2 ≤ y.1

/-- All chunk sizes positive. -/
abbrev PosSizes (m : List (Nat × Nat)) : Prop := ∀ e ∈ m, 0 < e.2

/-- All chunks lie below the bump pointer. -/
abbrev Below (m : List (Nat × Nat)) (bump : Nat) : Prop := ∀ e ∈ m, e.1 + e.2 ≤ bump

/-- Buckets are non-empty (invariant I4) and duplicate-free. -/
abbrev FBuckets (f : FreeSets) : Prop := ∀ e ∈ f, e.2 ≠ [] ∧ e.2.Nodup

/-- Invariant I1: every free address is a chunk of the bucket's size. -/
abbrev FInCS (m : List (Nat × Nat)) (f : FreeSets) : Prop :=
  ∀ e ∈ f, ∀ a ∈ e.2, mfind m a = some e.1

/-- Invariant I3: no two free chunks are physically adjacent. -/
abbrev NoAdjFree (m : List (Nat × Nat)) (f : FreeSets) : Prop :=
  ∀ a sa b, freeAddr f a → freeAddr f b → mfind m a = some sa → a + sa ≠ b

/-- The large heap's inductive invariant. -/
def LHInv (st : LHState) : Prop :=
  Sep st.chunkSizes ∧ PosSizes st.chunkSizes ∧ Below st.chunkSizes st.bump ∧
    trackedBase ≤ st.bump ∧
    SortedKeys st.freeChunkSets ∧ FBuckets st.freeChunkSets ∧
    FInCS st.chunkSizes st.freeChunkSets ∧
    NoAdjFree st.chunkSizes st.freeChunkSets

/-- Facts carried between the two merge steps of `unlocked_dealloc`: all
invariant components hold, `c ↦ s` is a recorded chunk that is not free, and
no free chunk ends exactly at `c`. -/
def MidState (st : LHState) (c s : Nat) : Prop :=
  Sep st.chunkSizes ∧ PosSizes st.chunkSizes ∧ Below st.chunkSizes st.bump ∧
    SortedKeys st.freeChunkSets ∧ FBuckets st.freeChunkSets ∧
    FInCS st.chunkSizes st.freeChunkSets ∧
    NoAdjFree st.chunkSizes st.freeChunkSets ∧
    mfind st.chunkSizes c = some s ∧
    ¬ freeAddr st.freeChunkSets c ∧
    (∀ x sx, freeAddr st.freeChunkSets x → mfind st.chunkSizes x = some sx →
      x + sx ≠ c)

/-- The pristine large-heap state right after bootstrap. -/
def lhInit : LHState := ⟨[], [], trackedBase⟩

/-- The large-heap state after one `alloc(64)` from the pristine state: a
64-byte used chunk at the base and a free residual covering the rest of the
fresh 1 MiB span. -/
def c4State : LHState :=
  ((LH_alloc lhInit 64 0).getD (lhInit, 0)).1

/-- The chunk returned by that `alloc(64)`. -/
def c4Ptr : Nat :=
  ((LH_alloc lhInit 64 0).getD (lhInit, 0)).2

/-! ## Sorted association-list lemmas -/

section MapLemmas

variable {β : Type}

theorem mfind_eq_none_iff (m : List (Nat × β)) (k : Nat) :
    mfind m k = none ↔ ∀ e ∈ m, e.1 ≠ k := by
  induction m with
  | nil => simp [mfind]
  | cons e es ih =>
    simp only [mfind]
    by_cases h : e.1 = k
    · simp only [if_pos h]
      constructor
      · intro hc; simp at hc
      · intro hall; exact absurd h (hall e (List.mem_cons_self _ _))
    · simp only [if_neg h]
      rw [ih]
      constructor
      · intro hall e' he'
        rcases List.mem_cons.mp he' with rfl | hm
        · exact h
        · exact hall e' hm
      · intro hall e' he'
        exact hall e' (List.mem_cons_of_mem _ he')

theorem mfind_mem {m : List (Nat × β)} {k : Nat} {v : β} (h : mfind m k = some v) :
    (k, v) ∈ m := by
  induction m with
  | nil => simp [mfind] at h
  | cons e es ih =>
    simp only [mfind] at h
    by_cases he : e.1 = k
    · rw [if_pos he] at h
      obtain ⟨rfl⟩ := Option.some_injective _ h
      exact List.mem_cons.mpr (Or.inl (by rw [← he]))
    · rw [if_neg he] at h
      exact List.mem_cons_of_mem _ (ih h)

theorem mem_mfind {m : List (Nat × β)} (hs : SortedKeys m) {k : Nat} {v : β}
    (h : (k, v) ∈ m) : mfind m k = some v := by
  induction m with
  | nil => simp at h
  | cons e es ih =>
    simp only [SortedKeys, List.pairwise_cons] at hs
    rcases List.mem_cons.mp h with rfl | hm
    · simp [mfind]
    · have hne : e.1 ≠ k := by
        have := hs.1 (k, v) hm
        omega
      simp only [mfind, if_neg hne]
      exact ih hs.2 hm

theorem mfind_minsert_self (m : List (Nat × β)) (k : Nat) (v : β) :
    mfind (minsert m k v) k = some v := by
  induction m with
  | nil => simp [minsert, mfind]
  | cons e es ih =>
    simp only [minsert]
    by_cases h1 : k < e.1
    · simp [if_pos h1, mfind]
    · rw [if_neg h1]
      by_cases h2 : e.1 = k
      · simp [if_pos h2, mfind]
      · rw [if_neg h2]
        have hne : e.1 ≠ k := h2
        simp only [mfind, if_neg hne]
        exact ih

theorem mfind_minsert_ne (m : List (Nat × β)) (k : Nat) (v : β) (q : Nat)
    (hq : q ≠ k) : mfind (minsert m k v) q = mfind m q := by
  induction m with
  | nil =>
    simp only [minsert, mfind]
    rw [if_neg (fun h => hq h.symm)]
  | cons e es ih =>
    simp only [minsert]
    by_cases h1 : k < e.1
    · simp only [if_pos h1, mfind]
      rw [if_neg (fun h => hq h.symm)]
    · rw [if_neg h1]
      by_cases h2 : e.1 = k
      · simp only [if_pos h2, mfind]
        rw [if_neg (fun h => hq h.symm), if_neg (h2 ▸ fun h => hq h.symm)]
      · rw [if_neg h2]
        simp only [mfind]
        by_cases h3 : e.1 = q
        · rw [if_pos h3, if_pos h3]
        · rw [if_neg h3, if_neg h3]
          exact ih

theorem mfind_merase_ne (m : List (Nat × β)) (k q : Nat) (hq : q ≠ k) :
    mfind (merase m k) q = mfind m q := by
  induction m with
  | nil => simp [merase]
  | cons e es ih =>
    simp only [merase]
    by_cases h1 : e.1 = k
    · simp only [if_pos h1, mfind]
      rw [if_neg (h1 ▸ fun h => hq h.symm)]
    · rw [if_neg h1]
      simp only [mfind]
      by_cases h3 : e.1 = q
      · rw [if_pos h3, if_pos h3]
      · rw [if_neg h3, if_neg h3]
        exact ih

theorem merase_sublist (m : List (Nat × β)) (k : Nat) : (merase m k).Sublist m := by
  induction m with
  | nil => simp [merase]
  | cons e es ih =>
    simp only [merase]
    by_cases h1 : e.1 = k
    · rw [if_pos h1]
      exact (List.sublist_cons_self e es)
    · rw [if_neg h1]
      exact List.Sublist.cons₂ e ih

theorem pairwise_merase {R : Nat × β → Nat × β → Prop} {m : List (Nat × β)}
    (hp : m.Pairwise R) (k : Nat) : (merase m k).Pairwise R :=
  hp.sublist (merase_sublist m k)

theorem mem_merase_of_mem {m : List (Nat × β)} {e : Nat × β} {k : Nat}
    (h : e ∈ merase m k) : e ∈ m :=
  (merase_sublist m k).subset h

theorem mem_merase {m : List (Nat × β)} (hs : SortedKeys m) (e : Nat × β) (k : Nat) :
    e ∈ merase m k ↔ e ∈ m ∧ e.1 ≠ k := by
  induction m with
  | nil => simp [merase]
  | cons a as ih =>
    simp only [SortedKeys, List.pairwise_cons] at hs
    simp only [merase]
    by_cases h1 : a.1 = k
    · rw [if_pos h1]
      constructor
      · intro hm
        refine ⟨List.mem_cons_of_mem _ hm, ?_⟩
        have := hs.1 e hm
        omega
      · intro ⟨hm, hne⟩
        rcases List.mem_cons.mp hm with rfl | hm'
        · exact absurd h1 hne
        · exact hm'
    · rw [if_neg h1]
      constructor
      · intro hm
        rcases List.mem_cons.mp hm with rfl | hm'
        · exact ⟨List.mem_cons_self _ _, h1⟩
        · have := (ih hs.2).mp hm'
          exact ⟨List.mem_cons_of_mem _ this.1, this.2⟩
      · intro ⟨hm, hne⟩
        rcases List.mem_cons.mp hm with rfl | hm'
        · exact List.mem_cons_self _ _
        · exact List.mem_cons_of_mem _ ((ih hs.2).mpr ⟨hm', hne⟩)

theorem mem_minsert {m : List (Nat × β)} (hs : SortedKeys m) (x : Nat × β)
    (k : Nat) (v : β) :
    x ∈ minsert m k v ↔ x = (k, v) ∨ (x ∈ m ∧ x.1 ≠ k) := by
  induction m with
  | nil => simp [minsert]
  | cons e es ih =>
    simp only [SortedKeys, List.pairwise_cons] at hs
    simp only [minsert]
    by_cases h1 : k < e.1
    · rw [if_pos h1]
      constructor
      · intro hm
        rcases List.mem_cons.mp hm with rfl | hm'
        · exact Or.inl rfl
        · refine Or.inr ⟨hm', ?_⟩
          rcases List.mem_cons.mp hm' with rfl | hm''
          · omega
          · have := hs.1 x hm''
            omega
      · intro hm
        rcases hm with rfl | ⟨hm', _⟩
        · exact List.mem_cons_self _ _
        · exact List.mem_cons_of_mem _ hm'
    · rw [if_neg h1]
      by_cases h2 : e.1 = k
      · rw [if_pos h2]
        constructor
        · intro hm
          rcases List.mem_cons.mp hm with rfl | hm'
          · exact Or.inl rfl
          · have := hs.1 x hm'
            refine Or.inr ⟨List.mem_cons_of_mem _ hm', by omega⟩
        · intro hm
          rcases hm with rfl | ⟨hm', hne⟩
          · exact List.mem_cons_self _ _
          · rcases List.mem_cons.mp hm' with rfl | hm''
            · exact absurd h2 hne
            · exact List.mem_cons_of_mem _ hm''
      · rw [if_neg h2]
        constructor
        · intro hm
          rcases List.mem_cons.mp hm with rfl | hm'
          · exact Or.inr ⟨List.mem_cons_self _ _, by omega⟩
          · rcases (ih hs.2).mp hm' with rfl | ⟨hm'', hne⟩
            · exact Or.inl rfl
            · exact Or.inr ⟨List.mem_cons_of_mem _ hm'', hne⟩
        · intro hm
          rcases hm with rfl | ⟨hm', hne⟩
          · exact List.mem_cons_of_mem _ ((ih hs.2).mpr (Or.inl rfl))
          · rcases List.mem_cons.mp hm' with rfl | hm''
            · exact List.mem_cons_self _ _
            · exact List.mem_cons_of_mem _ ((ih hs.2).mpr (Or.inr ⟨hm'', hne⟩))

theorem mfind_merase_self {m : List (Nat × β)} (hs : SortedKeys m) (k : Nat) :
    mfind (merase m k) k = none := by
  rw [mfind_eq_none_iff]
  intro e he
  exact ((mem_merase hs e k).mp he).2

theorem pairwise_minsert {R : Nat × β → Nat × β → Prop} {m : List (Nat × β)}
    (hs : SortedKeys m) (hp : m.Pairwise R) (k : Nat) (v : β)
    (hlo : ∀ e ∈ m, e.1 < k → R e (k, v))
    (hhi : ∀ e ∈ m, k < e.1 → R (k, v) e) : (minsert m k v).Pairwise R := by
  induction m with
  | nil => simp [minsert, hp]
  | cons e es ih =>
    simp only [SortedKeys, List.pairwise_cons] at hs hp
    simp only [minsert]
    by_cases h1 : k < e.1
    · rw [if_pos h1]
      rw [List.pairwise_cons]
      constructor
      · intro b hb
        rcases List.mem_cons.mp hb with rfl | hm
        · exact hhi b (List.mem_cons_self _ _) h1
        · exact hhi b (List.mem_cons_of_mem _ hm) (by have := hs.1 b hm; omega)
      · rw [List.pairwise_cons]
        exact ⟨hp.1, hp.2⟩
    · rw [if_neg h1]
      by_cases h2 : e.1 = k
      · rw [if_pos h2]
        rw [List.pairwise_cons]
        constructor
        · intro b hb
          exact hhi b (List.mem_cons_of_mem _ hb) (by have := hs.1 b hb; omega)
        · exact hp.2
      · rw [if_neg h2]
        rw [List.pairwise_cons]
        constructor
        · intro b hb
          rcases (mem_minsert hs.2 b k v).mp hb with rfl | ⟨hm, _⟩
          · exact hlo e (List.mem_cons_self _ _) (by omega)
          · exact hp.1 b hm
        · exact ih hs.2 hp.2
            (fun x hx hlt => hlo x (List.mem_cons_of_mem _ hx) hlt)
            (fun x hx hgt => hhi x (List.mem_cons_of_mem _ hx) hgt)

theorem sorted_minsert {m : List (Nat × β)} (hs : SortedKeys m) (k : Nat) (v : β) :
    SortedKeys (minsert m k v) :=
  pairwise_minsert hs hs k v (fun e _ h => h) (fun e _ h => h)

theorem sorted_merase {m : List (Nat × β)} (hs : SortedKeys m) (k : Nat) :
    SortedKeys (merase m k) :=
  pairwise_merase hs k

theorem prevEntry_mem {m : List (Nat × β)} {k : Nat} {pe : Nat × β}
    (h : prevEntry m k = some pe) : pe ∈ m ∧ pe.1 < k := by
  induction m generalizing pe with
  | nil => simp [prevEntry] at h
  | cons e es ih =>
    simp only [prevEntry] at h
    by_cases h1 : e.1 < k
    · rw [if_pos h1] at h
      obtain ⟨rfl⟩ := Option.some_injective _ h
      cases hpe : prevEntry es k with
      | none => simp [hpe, h1]
      | some pe' =>
        have := ih hpe
        simp only [hpe, Option.getD_some]
        exact ⟨List.mem_cons_of_mem _ this.1, this.2⟩
    · rw [if_neg h1] at h
      cases h

theorem prevEntry_none {m : List (Nat × β)} (hs : SortedKeys m) {k : Nat}
    (h : prevEntry m k = none) : ∀ e ∈ m, ¬ e.1 < k := by
  cases m with
  | nil => intro e he; simp at he
  | cons e es =>
    simp only [SortedKeys, List.pairwise_cons] at hs
    simp only [prevEntry] at h
    by_cases h1 : e.1 < k
    · rw [if_pos h1] at h; cases h
    · intro x hx
      rcases List.mem_cons.mp hx with rfl | hm
      · exact h1
      · have := hs.1 x hm
        omega

theorem prevEntry_max {m : List (Nat × β)} (hs : SortedKeys m) {k : Nat}
    {pe : Nat × β} (h : prevEntry m k = some pe) :
    ∀ e ∈ m, e.1 < k → e.1 ≤ pe.1 := by
  induction m generalizing pe with
  | nil => simp [prevEntry] at h
  | cons e es ih =>
    simp only [SortedKeys, List.pairwise_cons] at hs
    simp only [prevEntry] at h
    by_cases h1 : e.1 < k
    · rw [if_pos h1] at h
      obtain ⟨rfl⟩ := Option.some_injective _ h
      intro x hx hxk
      rcases List.mem_cons.mp hx with rfl | hm
      · cases hpe : prevEntry es k with
        | none => simp [hpe]
        | some pe' =>
          have := prevEntry_mem hpe
          have := hs.1 pe' this.1
          simp only [hpe, Option.getD_some]
          omega
      · cases hpe : prevEntry es k with
        | none =>
          exact absurd hxk (prevEntry_none hs.2 hpe x hm)
        | some pe' =>
          simp only [hpe, Option.getD_some]
          exact ih hs.2 hpe x hm hxk
    · rw [if_neg h1] at h
      cases h

theorem nextEntry_mem {m : List (Nat × β)} {k : Nat} {ne : Nat × β}
    (h : nextEntry m k = some ne) : ne ∈ m ∧ k < ne.1 := by
  induction m with
  | nil => simp [nextEntry] at h
  | cons e es ih =>
    simp only [nextEntry] at h
    by_cases h1 : k < e.1
    · rw [if_pos h1] at h
      obtain ⟨rfl⟩ := Option.some_injective _ h
      exact ⟨List.mem_cons_self _ _, h1⟩
    · rw [if_neg h1] at h
      have := ih h
      exact ⟨List.mem_cons_of_mem _ this.1, this.2⟩

theorem nextEntry_none {m : List (Nat × β)} {k : Nat}
    (h : nextEntry m k = none) : ∀ e ∈ m, ¬ k < e.1 := by
  induction m with
  | nil => intro e he; simp at he
  | cons e es ih =>
    simp only [nextEntry] at h
    by_cases h1 : k < e.1
    · rw [if_pos h1] at h; cases h
    · rw [if_neg h1] at h
      intro x hx
      rcases List.mem_cons.mp hx with rfl | hm
      · exact h1
      · exact ih h x hm

theorem nextEntry_min {m : List (Nat × β)} (hs : SortedKeys m) {k : Nat}
    {ne : Nat × β} (h : nextEntry m k = some ne) :
    ∀ e ∈ m, k < e.1 → ne.1 ≤ e.1 := by
  induction m with
  | nil => simp [nextEntry] at h
  | cons e es ih =>
    simp only [SortedKeys, List.pairwise_cons] at hs
    simp only [nextEntry] at h
    by_cases h1 : k < e.1
    · rw [if_pos h1] at h
      obtain ⟨rfl⟩ := Option.some_injective _ h
      intro x hx hxk
      rcases List.mem_cons.mp hx with rfl | hm
      · exact le_refl _
      · have := hs.1 x hm
        omega
    · rw [if_neg h1] at h
      intro x hx hxk
      rcases List.mem_cons.mp hx with rfl | hm
      · omega
      · exact ih hs.2 h x hm hxk

theorem lowerBoundE_mem {m : List (Nat × β)} {k : Nat} {e₀ : Nat × β}
    (h : lowerBoundE m k = some e₀) : e₀ ∈ m ∧ k ≤ e₀.1 := by
  induction m with
  | nil => simp [lowerBoundE] at h
  | cons e es ih =>
    simp only [lowerBoundE] at h
    by_cases h1 : k ≤ e.1
    · rw [if_pos h1] at h
      obtain ⟨rfl⟩ := Option.some_injective _ h
      exact ⟨List.mem_cons_self _ _, h1⟩
    · rw [if_neg h1] at h
      have := ih h
      exact ⟨List.mem_cons_of_mem _ this.1, this.2⟩

theorem lowerBoundE_none {m : List (Nat × β)} {k : Nat}
    (h : lowerBoundE m k = none) : ∀ e ∈ m, e.1 < k := by
  induction m with
  | nil => intro e he; simp at he
  | cons e es ih =>
    simp only [lowerBoundE] at h
    by_cases h1 : k ≤ e.1
    · rw [if_pos h1] at h; cases h
    · rw [if_neg h1] at h
      intro x hx
      rcases List.mem_cons.mp hx with rfl | hm
      · omega
      · exact ih h x hm

theorem lowerBoundE_min {m : List (Nat × β)} (hs : SortedKeys m) {k : Nat}
    {e₀ : Nat × β} (h : lowerBoundE m k = some e₀) :
    ∀ e ∈ m, k ≤ e.1 → e₀.1 ≤ e.1 := by
  induction m with
  | nil => simp [lowerBoundE] at h
  | cons e es ih =>
    simp only [SortedKeys, List.pairwise_cons] at hs
    simp only [lowerBoundE] at h
    by_cases h1 : k ≤ e.1
    · rw [if_pos h1] at h
      obtain ⟨rfl⟩ := Option.some_injective _ h
      intro x hx hxk
      rcases List.mem_cons.mp hx with rfl | hm
      · exact le_refl _
      · have := hs.1 x hm
        omega
    · rw [if_neg h1] at h
      intro x hx hxk
      rcases List.mem_cons.mp hx with rfl | hm
      · omega
      · exact ih hs.2 h x hm hxk

end MapLemmas

/-! ## Free-set lemmas -/

theorem minsert_self_eq {β : Type} {m : List (Nat × β)} (hs : SortedKeys m)
    {k : Nat} {v : β} (h : (k, v) ∈ m) : minsert m k v = m := by
  induction m with
  | nil => simp at h
  | cons e es ih =>
    simp only [SortedKeys, List.pairwise_cons] at hs
    simp only [minsert]
    rcases List.mem_cons.mp h with rfl | hm
    · simp
    · have hlt : e.1 < k := hs.1 (k, v) hm
      rw [if_neg (by omega), if_neg (by omega)]
      rw [ih hs.2 hm]

theorem contains_true_iff {l : List Nat} {a : Nat} : l.contains a = true ↔ a ∈ l :=
  List.elem_iff

theorem isFreeAt_freeAddr {f : FreeSets} {s a : Nat}
    (h : isFreeAt f s a = true) : freeAddr f a := by
  unfold isFreeAt at h
  cases hm : mfind f s with
  | none => rw [hm] at h; cases h
  | some bkt =>
    rw [hm] at h
    exact ⟨(s, bkt), mfind_mem hm, contains_true_iff.mp h⟩

theorem freeAddr_isFreeAt {m : List (Nat × Nat)} {f : FreeSets} {a s : Nat}
    (hs : SortedKeys f) (hI : FInCS m f) (hfa : freeAddr f a)
    (hma : mfind m a = some s) : isFreeAt f s a = true := by
  obtain ⟨e, hef, hae⟩ := hfa
  have h1 := hI e hef a hae
  rw [hma] at h1
  obtain ⟨rfl⟩ := Option.some_injective _ h1.symm
  have h2 : mfind f e.1 = some e.2 := mem_mfind hs (by rw [← Prod.mk.eta (p := e)] at hef; exact hef)
  unfold isFreeAt
  rw [h2]
  exact contains_true_iff.mpr hae

/-- The size of a free address is determined: it sits in the bucket of its
recorded chunk size. -/
theorem freeAddr_bucket {m : List (Nat × Nat)} {f : FreeSets} {a : Nat}
    (hs : SortedKeys f) (hI : FInCS m f) (hfa : freeAddr f a) :
    ∃ s bkt, mfind m a = some s ∧ mfind f s = some bkt ∧ a ∈ bkt := by
  obtain ⟨e, hef, hae⟩ := hfa
  refine ⟨e.1, e.2, hI e hef a hae, ?_, hae⟩
  exact mem_mfind hs (by rw [← Prod.mk.eta (p := e)] at hef; exact hef)

theorem sorted_fcsErase {f : FreeSets} (hs : SortedKeys f) (s a : Nat) :
    SortedKeys (fcsErase f s a) := by
  unfold fcsErase
  cases hm : mfind f s with
  | none => exact hs
  | some bkt =>
    dsimp only
    split
    · exact sorted_merase hs s
    · exact sorted_minsert hs s _

theorem fbuckets_fcsErase {f : FreeSets} (hs : SortedKeys f) (hB : FBuckets f)
    (s a : Nat) : FBuckets (fcsErase f s a) := by
  unfold fcsErase
  cases hm : mfind f s with
  | none => exact hB
  | some bkt =>
    dsimp only
    split
    · intro e he
      exact hB e (mem_merase_of_mem he)
    · next hne =>
      intro e he
      rcases (mem_minsert hs e s _).mp he with rfl | ⟨hef, _⟩
      · refine ⟨hne, ?_⟩
        exact (hB (s, bkt) (mfind_mem hm)).2.erase a
      · exact hB e hef

theorem fincs_fcsErase {m : List (Nat × Nat)} {f : FreeSets}
    (hs : SortedKeys f) (hI : FInCS m f) (s a : Nat) :
    FInCS m (fcsErase f s a) := by
  unfold fcsErase
  cases hm : mfind f s with
  | none => exact hI
  | some bkt =>
    dsimp only
    split
    · intro e he x hx
      exact hI e (mem_merase_of_mem he) x hx
    · intro e he x hx
      rcases (mem_minsert hs e s _).mp he with rfl | ⟨hef, _⟩
      · exact hI (s, bkt) (mfind_mem hm) x (List.mem_of_mem_erase hx)
      · exact hI e hef x hx

theorem freeAddr_fcsErase_mono {f : FreeSets} (hs : SortedKeys f) {s a x : Nat}
    (h : freeAddr (fcsErase f s a) x) : freeAddr f x := by
  unfold fcsErase at h
  cases hm : mfind f s with
  | none => rw [hm] at h; exact h
  | some bkt =>
    rw [hm] at h
    dsimp only at h
    obtain ⟨e, hef, hxe⟩ := h
    split at hef
    · exact ⟨e, mem_merase_of_mem hef, hxe⟩
    · rcases (mem_minsert hs e s _).mp hef with rfl | ⟨hef', _⟩
      · exact ⟨(s, bkt), mfind_mem hm, List.mem_of_mem_erase hxe⟩
      · exact ⟨e, hef', hxe⟩

theorem not_freeAddr_fcsErase {m : List (Nat × Nat)} {f : FreeSets} {s a : Nat}
    (hs : SortedKeys f) (hB : FBuckets f) (hI : FInCS m f)
    (hma : mfind m a = some s) : ¬ freeAddr (fcsErase f s a) a := by
  intro h
  unfold fcsErase at h
  cases hm : mfind f s with
  | none =>
    rw [hm] at h
    obtain ⟨e, hef, hae⟩ := h
    have h1 := hI e hef a hae
    rw [hma] at h1
    obtain ⟨rfl⟩ := Option.some_injective _ h1.symm
    have := mem_mfind hs (by rw [← Prod.mk.eta (p := e)] at hef; exact hef)
    rw [hm] at this
    cases this
  | some bkt =>
    rw [hm] at h
    dsimp only at h
    obtain ⟨e, hef, hae⟩ := h
    split at hef
    · have h1 := hI e (mem_merase_of_mem hef) a hae
      rw [hma] at h1
      have hse : s = e.1 := Option.some_injective _ h1
      exact ((mem_merase hs e s).mp hef).2 hse.symm
    · rcases (mem_minsert hs e s _).mp hef with rfl | ⟨hef', hne⟩
      · have hnd := (hB (s, bkt) (mfind_mem hm)).2
        exact (hnd.mem_erase_iff.mp hae).1 rfl
      · have h1 := hI e hef' a hae
        rw [hma] at h1
        obtain ⟨rfl⟩ := Option.some_injective _ h1.symm
        exact hne rfl

theorem freeAddr_fcsErase_of_ne {m : List (Nat × Nat)} {f : FreeSets}
    {s a x : Nat} (hs : SortedKeys f) (hI : FInCS m f)
    (hx : freeAddr f x) (hne : x ≠ a) : freeAddr (fcsErase f s a) x := by
  obtain ⟨e, hef, hxe⟩ := hx
  unfold fcsErase
  cases hm : mfind f s with
  | none => exact ⟨e, hef, hxe⟩
  | some bkt =>
    dsimp only
    by_cases hes : e.1 = s
    · have hbe : e.2 = bkt := by
        have := mem_mfind hs (by rw [← Prod.mk.eta (p := e)] at hef; exact hef)
        rw [hes, hm] at this
        exact Option.some_injective _ this.symm
      have hxb : x ∈ bkt.erase a := by
        rw [List.mem_erase_of_ne hne, ← hbe]
        exact hxe
      split
      · next hnil => rw [hnil] at hxb; cases hxb
      · next hnil =>
        exact ⟨(s, bkt.erase a), (mem_minsert hs _ s _).mpr (Or.inl rfl), hxb⟩
    · split
      · exact ⟨e, (mem_merase hs e s).mpr ⟨hef, hes⟩, hxe⟩
      · exact ⟨e, (mem_minsert hs e s _).mpr (Or.inr ⟨hef, hes⟩), hxe⟩

theorem sorted_fcsInsert {f : FreeSets} (hs : SortedKeys f) (s a : Nat) :
    SortedKeys (fcsInsert f s a) := by
  unfold fcsInsert
  cases mfind f s with
  | none => exact sorted_minsert hs s _
  | some bkt => exact sorted_minsert hs s _

theorem fbuckets_fcsInsert {f : FreeSets} (hs : SortedKeys f) (hB : FBuckets f)
    (s a : Nat) : FBuckets (fcsInsert f s a) := by
  unfold fcsInsert
  cases hm : mfind f s with
  | none =>
    intro e he
    rcases (mem_minsert hs e s _).mp he with rfl | ⟨hef, _⟩
    · exact ⟨by simp, by simp⟩
    · exact hB e hef
  | some bkt =>
    intro e he
    rcases (mem_minsert hs e s _).mp he with rfl | ⟨hef, _⟩
    · have hb := hB (s, bkt) (mfind_mem hm)
      by_cases hab : a ∈ bkt
      · rw [if_pos hab]
        exact hb
      · rw [if_neg hab]
        refine ⟨by simp, ?_⟩
        have : bkt.Nodup := hb.2
        simp [List.nodup_append, this, hab]
    · exact hB e hef

theorem fincs_fcsInsert {m : List (Nat × Nat)} {f : FreeSets} {s a : Nat}
    (hs : SortedKeys f) (hI : FInCS m f) (hma : mfind m a = some s) :
    FInCS m (fcsInsert f s a) := by
  unfold fcsInsert
  cases hm : mfind f s with
  | none =>
    intro e he x hx
    rcases (mem_minsert hs e s _).mp he with rfl | ⟨hef, _⟩
    · rcases List.mem_singleton.mp hx with rfl
      exact hma
    · exact hI e hef x hx
  | some bkt =>
    intro e he x hx
    rcases (mem_minsert hs e s _).mp he with rfl | ⟨hef, _⟩
    · by_cases hab : a ∈ bkt
      · rw [if_pos hab] at hx
        exact hI (s, bkt) (mfind_mem hm) x hx
      · rw [if_neg hab] at hx
        rcases List.mem_append.mp hx with hx' | hx'
        · exact hI (s, bkt) (mfind_mem hm) x hx'
        · rcases List.mem_singleton.mp hx' with rfl
          exact hma
    · exact hI e hef x hx

theorem freeAddr_fcsInsert_iff {f : FreeSets} (hs : SortedKeys f) (s a x : Nat) :
    freeAddr (fcsInsert f s a) x ↔ freeAddr f x ∨ x = a := by
  unfold fcsInsert
  constructor
  · intro h
    cases hm : mfind f s with
    | none =>
      rw [hm] at h
      obtain ⟨e, hef, hxe⟩ := h
      rcases (mem_minsert hs e s _).mp hef with rfl | ⟨hef', _⟩
      · rcases List.mem_singleton.mp hxe with rfl
        exact Or.inr rfl
      · exact Or.inl ⟨e, hef', hxe⟩
    | some bkt =>
      rw [hm] at h
      obtain ⟨e, hef, hxe⟩ := h
      rcases (mem_minsert hs e s _).mp hef with rfl | ⟨hef', _⟩
      · by_cases hab : a ∈ bkt
        · rw [if_pos hab] at hxe
          exact Or.inl ⟨(s, bkt), mfind_mem hm, hxe⟩
        · rw [if_neg hab] at hxe
          rcases List.mem_append.mp hxe with hx' | hx'
          · exact Or.inl ⟨(s, bkt), mfind_mem hm, hx'⟩
          · rcases List.mem_singleton.mp hx' with rfl
            exact Or.inr rfl
      · exact Or.inl ⟨e, hef', hxe⟩
  · intro h
    cases hm : mfind f s with
    | none =>
      rcases h with ⟨e, hef, hxe⟩ | rfl
      · have hes : e.1 ≠ s := by
          intro hc
          have := mem_mfind hs (by rw [← Prod.mk.eta (p := e)] at hef; exact hef)
          rw [hc, hm] at this
          cases this
        exact ⟨e, (mem_minsert hs e s _).mpr (Or.inr ⟨hef, hes⟩), hxe⟩
      · exact ⟨(s, [x]), (mem_minsert hs _ s _).mpr (Or.inl rfl), List.mem_singleton_self x⟩
    | some bkt =>
      rcases h with ⟨e, hef, hxe⟩ | rfl
      · by_cases hes : e.1 = s
        · have hbe : e.2 = bkt := by
            have := mem_mfind hs (by rw [← Prod.mk.eta (p := e)] at hef; exact hef)
            rw [hes, hm] at this
            exact Option.some_injective _ this.symm
          refine ⟨(s, if a ∈ bkt then bkt else bkt ++ [a]),
            (mem_minsert hs _ s _).mpr (Or.inl rfl), ?_⟩
          have hxb : x ∈ bkt := hbe ▸ hxe
          split <;> simp [hxb]
        · exact ⟨e, (mem_minsert hs e s _).mpr (Or.inr ⟨hef, hes⟩), hxe⟩
      · refine ⟨(s, if x ∈ bkt then bkt else bkt ++ [x]),
          (mem_minsert hs _ s _).mpr (Or.inl rfl), ?_⟩
        split <;> simp_all

/-! ## Large-heap invariant preservation -/

theorem sep_pairs {m : List (Nat × Nat)} (hsep : Sep m) (hpos : PosSizes m) :
    ∀ e ∈ m, ∀ e' ∈ m, e.1 < e'.1 → e.1 + e.2 ≤ e'.1 := by
  induction m with
  | nil => intro e he; simp at he
  | cons a as ih =>
    simp only [Sep, List.pairwise_cons] at hsep
    intro e he e' he' hlt
    rcases List.mem_cons.mp he with rfl | hm
    · rcases List.mem_cons.mp he' with rfl | hm'
      · omega
      · exact hsep.1 e' hm'
    · rcases List.mem_cons.mp he' with rfl | hm'
      · have h1 := hsep.1 e hm
        have h2 := hpos e (List.mem_cons_of_mem _ hm)
        omega
      · exact ih hsep.2 (fun x hx => hpos x (List.mem_cons_of_mem _ hx)) e hm e' hm' hlt

theorem sorted_of_sep_pos {m : List (Nat × Nat)} (hsep : Sep m)
    (hpos : PosSizes m) : SortedKeys m := by
  refine List.Pairwise.imp_of_mem ?_ hsep
  intro a b ha hb hab
  have := hpos a ha
  omega

theorem mfind_pos {m : List (Nat × Nat)} (hpos : PosSizes m) {a s : Nat}
    (h : mfind m a = some s) : 0 < s :=
  hpos (a, s) (mfind_mem h)

/-- `mergePrev` preserves the invariant bundle, on a non-free chunk `p`. -/
theorem mergePrev_spec (st : LHState) (p sz : Nat) (hinv : LHInv st)
    (hp : mfind st.chunkSizes p = some sz)
    (hnf : ¬ freeAddr st.freeChunkSets p) :
    MidState (mergePrev st p sz).2.2 (mergePrev st p sz).1 (mergePrev st p sz).2.1 ∧
      (mergePrev st p sz).2.2.bump = st.bump ∧
      (mergePrev st p sz).1 + (mergePrev st p sz).2.1 = p + sz ∧
      (∀ x, freeAddr (mergePrev st p sz).2.2.freeChunkSets x →
        freeAddr st.freeChunkSets x) := by
  obtain ⟨hSep, hPos, hBel, hBase, hFs, hFb, hFi, hNa⟩ := hinv
  have hsort : SortedKeys st.chunkSizes := sorted_of_sep_pos hSep hPos
  unfold mergePrev
  cases hpe : prevEntry st.chunkSizes p with
  | none =>
    dsimp only
    refine ⟨⟨hSep, hPos, hBel, hFs, hFb, hFi, hNa, hp, hnf, ?_⟩, rfl, rfl, fun x hx => hx⟩
    intro x sx hx hmx heq
    have hxm := mfind_mem hmx
    have hpos := mfind_pos hPos hmx
    exact prevEntry_none hsort hpe (x, sx) hxm (by omega)
  | some pe =>
    dsimp only
    by_cases hg : pe.1 + pe.2 = p ∧ isFreeAt st.freeChunkSets pe.2 pe.1 = true
    · rw [if_pos hg]
      obtain ⟨hadj, hfree⟩ := hg
      have hqm : (pe.1, pe.2) ∈ st.chunkSizes := by
        have := (prevEntry_mem hpe).1
        rwa [← Prod.mk.eta (p := pe)] at this
      have hqlt : pe.1 < p := (prevEntry_mem hpe).2
      have hqfind : mfind st.chunkSizes pe.1 = some pe.2 := mem_mfind hsort hqm
      have hfq : freeAddr st.freeChunkSets pe.1 := isFreeAt_freeAddr hfree
      have hpm : (p, sz) ∈ st.chunkSizes := mfind_mem hp
      have hqpos : 0 < pe.2 := hPos _ hqm
      have hsortE : SortedKeys (merase st.chunkSizes p) := sorted_merase hsort p
      -- membership transport for free addresses of the new free set
      have hfmono : ∀ x, freeAddr (fcsErase st.freeChunkSets pe.2 pe.1) x →
          freeAddr st.freeChunkSets x := fun x hx => freeAddr_fcsErase_mono hFs hx
      have hnq : ¬ freeAddr (fcsErase st.freeChunkSets pe.2 pe.1) pe.1 :=
        not_freeAddr_fcsErase hFs hFb hFi hqfind
      have hxne : ∀ x, freeAddr (fcsErase st.freeChunkSets pe.2 pe.1) x →
          x ≠ pe.1 ∧ x ≠ p ∧ freeAddr st.freeChunkSets x := by
        intro x hx
        refine ⟨?_, ?_, hfmono x hx⟩
        · intro hc; rw [hc] at hx; exact hnq hx
        · intro hc; rw [hc] at hx; exact hnf (hfmono _ hx)
      have hmf : ∀ x, x ≠ pe.1 → x ≠ p →
          mfind (minsert (merase st.chunkSizes p) pe.1 (pe.2 + sz)) x =
            mfind st.chunkSizes x := by
        intro x hx1 hx2
        rw [mfind_minsert_ne _ _ _ _ hx1, mfind_merase_ne _ _ _ hx2]
      refine ⟨⟨?_, ?_, ?_, sorted_fcsErase hFs _ _, fbuckets_fcsErase hFs hFb _ _,
        ?_, ?_, mfind_minsert_self _ _ _, hnq, ?_⟩, rfl, by dsimp only; omega, hfmono⟩
      · -- Sep
        refine pairwise_minsert hsortE (pairwise_merase hSep p) _ _ ?_ ?_
        · intro e he hlt
          exact sep_pairs hSep hPos e (mem_merase_of_mem he) (pe.1, pe.2) hqm hlt
        · intro e he hlt
          have hem := (mem_merase hsort e p).mp he
          by_cases hep : e.1 < p
          · have := sep_pairs hSep hPos (pe.1, pe.2) hqm e hem.1 hlt
            omega
          · have hgt : p < e.1 := by
              have := hem.2
              omega
            have := sep_pairs hSep hPos (p, sz) hpm e hem.1 hgt
            omega
      · -- PosSizes
        intro e he
        rcases (mem_minsert hsortE e _ _).mp he with rfl | ⟨he', _⟩
        · dsimp only; omega
        · exact hPos e (mem_merase_of_mem he')
      · -- Below
        intro e he
        rcases (mem_minsert hsortE e _ _).mp he with rfl | ⟨he', _⟩
        · have := hBel (p, sz) hpm
          dsimp only
          omega
        · exact hBel e (mem_merase_of_mem he')
      · -- FInCS
        intro e he x hx
        obtain ⟨hx1, hx2, hx3⟩ := hxne x ⟨e, he, hx⟩
        rw [hmf x hx1 hx2]
        exact fincs_fcsErase hFs hFi pe.2 pe.1 e he x hx
      · -- NoAdjFree
        intro x sx y hx hy hmx heq
        obtain ⟨hx1, hx2, hx3⟩ := hxne x hx
        obtain ⟨hy1, hy2, hy3⟩ := hxne y hy
        rw [hmf x hx1 hx2] at hmx
        exact hNa x sx y hx3 hy3 hmx heq
      · -- no free chunk ends at the merged start
        intro x sx hx hmx heq
        obtain ⟨hx1, hx2, hx3⟩ := hxne x hx
        rw [hmf x hx1 hx2] at hmx
        exact hNa x sx pe.1 hx3 hfq hmx heq
    · rw [if_neg hg]
      dsimp only
      refine ⟨⟨hSep, hPos, hBel, hFs, hFb, hFi, hNa, hp, hnf, ?_⟩, rfl, rfl, fun x hx => hx⟩
      intro x sx hx hmx heq
      have hxm := mfind_mem hmx
      have hxpos := mfind_pos hPos hmx
      have hxlt : x < p := by omega
      have hle := prevEntry_max hsort hpe (x, sx) hxm hxlt
      rcases Nat.lt_or_ge x pe.1 with hcase | hcase
      · have := sep_pairs hSep hPos (x, sx) hxm (pe.1, pe.2)
          (by have := (prevEntry_mem hpe).1; rwa [← Prod.mk.eta (p := pe)] at this) hcase
        have hqlt : pe.1 < p := (prevEntry_mem hpe).2
        omega
      · have hxeq : x = pe.1 := by dsimp only at hle; omega
        subst hxeq
        have hqm : (pe.1, pe.2) ∈ st.chunkSizes := by
          have := (prevEntry_mem hpe).1
          rwa [← Prod.mk.eta (p := pe)] at this
        have : mfind st.chunkSizes pe.1 = some pe.2 := mem_mfind hsort hqm
        rw [hmx] at this
        have hsx : sx = pe.2 := Option.some_injective _ this
        subst hsx
        exact hg ⟨heq, freeAddr_isFreeAt hFs hFi hx hmx⟩

/-- `mergeNext` preserves the invariant bundle and leaves no free chunk
starting at the end of the (possibly extended) chunk. -/
theorem mergeNext_spec (st : LHState) (c s : Nat) (hmid : MidState st c s) :
    MidState (mergeNext st c s).2 c (mergeNext st c s).1 ∧
      (mergeNext st c s).2.bump = st.bump ∧
      (∀ x, freeAddr (mergeNext st c s).2.freeChunkSets x →
        c + (mergeNext st c s).1 ≠ x) ∧
      (∀ x, freeAddr (mergeNext st c s).2.freeChunkSets x →
        freeAddr st.freeChunkSets x) := by
  obtain ⟨hSep, hPos, hBel, hFs, hFb, hFi, hNa, hc, hncf, hleft⟩ := hmid
  have hsort := sorted_of_sep_pos hSep hPos
  have hcm : (c, s) ∈ st.chunkSizes := mfind_mem hc
  have hspos : 0 < s := hPos _ hcm
  unfold mergeNext
  cases hne : nextEntry st.chunkSizes c with
  | none =>
    dsimp only
    refine ⟨⟨hSep, hPos, hBel, hFs, hFb, hFi, hNa, hc, hncf, hleft⟩, rfl, ?_,
      fun x hx => hx⟩
    intro x hx heq
    obtain ⟨sx, bkt, hmx, _, _⟩ := freeAddr_bucket hFs hFi hx
    have hxm := mfind_mem hmx
    exact nextEntry_none hne (x, sx) hxm (by omega)
  | some ne =>
    dsimp only
    by_cases hg : c + s = ne.1 ∧ isFreeAt st.freeChunkSets ne.2 ne.1 = true
    · rw [if_pos hg]
      obtain ⟨hadj, hfree⟩ := hg
      have hbm : (ne.1, ne.2) ∈ st.chunkSizes := by
        have := (nextEntry_mem hne).1
        rwa [← Prod.mk.eta (p := ne)] at this
      have hblt : c < ne.1 := (nextEntry_mem hne).2
      have hbfind : mfind st.chunkSizes ne.1 = some ne.2 := mem_mfind hsort hbm
      have hfb : freeAddr st.freeChunkSets ne.1 := isFreeAt_freeAddr hfree
      have hbpos : 0 < ne.2 := hPos _ hbm
      have hsortE : SortedKeys (merase st.chunkSizes ne.1) := sorted_merase hsort ne.1
      have hfmono : ∀ x, freeAddr (fcsErase st.freeChunkSets ne.2 ne.1) x →
          freeAddr st.freeChunkSets x := fun x hx => freeAddr_fcsErase_mono hFs hx
      have hnb : ¬ freeAddr (fcsErase st.freeChunkSets ne.2 ne.1) ne.1 :=
        not_freeAddr_fcsErase hFs hFb hFi hbfind
      have hxne : ∀ x, freeAddr (fcsErase st.freeChunkSets ne.2 ne.1) x →
          x ≠ ne.1 ∧ x ≠ c ∧ freeAddr st.freeChunkSets x := by
        intro x hx
        refine ⟨fun hcx => by rw [hcx] at hx; exact hnb hx, fun hcx => ?_, hfmono x hx⟩
        rw [hcx] at hx
        exact hncf (hfmono _ hx)
      have hmf : ∀ x, x ≠ c → x ≠ ne.1 →
          mfind (minsert (merase st.chunkSizes ne.1) c (s + ne.2)) x =
            mfind st.chunkSizes x := by
        intro x h1 h2
        rw [mfind_minsert_ne _ _ _ _ h1, mfind_merase_ne _ _ _ h2]
      refine ⟨⟨?_, ?_, ?_, sorted_fcsErase hFs _ _, fbuckets_fcsErase hFs hFb _ _,
        ?_, ?_, mfind_minsert_self _ _ _, ?_, ?_⟩, rfl, ?_, hfmono⟩
      · refine pairwise_minsert hsortE (pairwise_merase hSep ne.1) _ _ ?_ ?_
        · intro e he hlt
          exact sep_pairs hSep hPos e (mem_merase_of_mem he) (c, s) hcm hlt
        · intro e he hlt
          have hem := (mem_merase hsort e ne.1).mp he
          by_cases heb : e.1 < ne.1
          · have := sep_pairs hSep hPos (c, s) hcm e hem.1 hlt
            omega
          · have hgt : ne.1 < e.1 := by
              have := hem.2
              omega
            have := sep_pairs hSep hPos (ne.1, ne.2) hbm e hem.1 hgt
            omega
      · intro e he
        rcases (mem_minsert hsortE e _ _).mp he with rfl | ⟨he', _⟩
        · dsimp only; omega
        · exact hPos e (mem_merase_of_mem he')
      · intro e he
        rcases (mem_minsert hsortE e _ _).mp he with rfl | ⟨he', _⟩
        · have := hBel (ne.1, ne.2) hbm
          dsimp only
          omega
        · exact hBel e (mem_merase_of_mem he')
      · intro e he x hx
        obtain ⟨h1, h2, h3⟩ := hxne x ⟨e, he, hx⟩
        rw [hmf x h2 h1]
        exact fincs_fcsErase hFs hFi ne.2 ne.1 e he x hx
      · intro x sx y hx hy hmx heq
        obtain ⟨hx1, hx2, hx3⟩ := hxne x hx
        obtain ⟨hy1, hy2, hy3⟩ := hxne y hy
        rw [hmf x hx2 hx1] at hmx
        exact hNa x sx y hx3 hy3 hmx heq
      · intro hx
        exact hncf (hfmono _ hx)
      · intro x sx hx hmx heq
        obtain ⟨hx1, hx2, hx3⟩ := hxne x hx
        rw [hmf x hx2 hx1] at hmx
        exact hleft x sx hx3 hmx heq
      · intro x hx heq
        obtain ⟨hx1, hx2, hx3⟩ := hxne x hx
        exact hNa ne.1 ne.2 x hfb hx3 hbfind (by omega)
    · rw [if_neg hg]
      dsimp only
      refine ⟨⟨hSep, hPos, hBel, hFs, hFb, hFi, hNa, hc, hncf, hleft⟩, rfl, ?_,
        fun x hx => hx⟩
      intro x hx heq
      obtain ⟨sx, bkt, hmx, hfbkt, hxbkt⟩ := freeAddr_bucket hFs hFi hx
      have hxm := mfind_mem hmx
      have hxgt : c < x := by omega
      have hminne := nextEntry_min hsort hne (x, sx) hxm hxgt
      have hbm : (ne.1, ne.2) ∈ st.chunkSizes := by
        have := (nextEntry_mem hne).1
        rwa [← Prod.mk.eta (p := ne)] at this
      have hblt : c < ne.1 := (nextEntry_mem hne).2
      rcases Nat.lt_or_ge ne.1 x with hcase | hcase
      · have := sep_pairs hSep hPos (c, s) hcm (ne.1, ne.2) hbm hblt
        omega
      · have hxeq : ne.1 = x := by
          dsimp only at hminne
          omega
        have hbfind : mfind st.chunkSizes ne.1 = some ne.2 := mem_mfind hsort hbm
        have hsx : ne.2 = sx := by
          rw [hxeq, hmx] at hbfind
          exact Option.some_injective _ hbfind.symm
        refine hg ⟨by omega, ?_⟩
        rw [hxeq, hsx]
        exact freeAddr_isFreeAt hFs hFi hx hmx

/-- `unlocked_dealloc` preserves the large-heap invariant. -/
theorem unlocked_dealloc_inv {st st' : LHState} {p : Nat} (hinv : LHInv st)
    (h : unlocked_dealloc st p = some st') : LHInv st' := by
  obtain ⟨hSep, hPos, hBel, hBase, hFs, hFb, hFi, hNa⟩ := hinv
  have hsort := sorted_of_sep_pos hSep hPos
  unfold unlocked_dealloc at h
  cases hp : mfind st.chunkSizes p with
  | none => rw [hp] at h; cases h
  | some sz =>
    rw [hp] at h
    dsimp only at h
    by_cases hnf : freeAddr st.freeChunkSets p
    · -- double free: both merges are no-ops and the final insert is idempotent
      obtain ⟨s0, bkt, hm0, hf0, hpb⟩ := freeAddr_bucket hFs hFi hnf
      have hs0 : sz = s0 := by
        rw [hp] at hm0
        exact Option.some_injective _ hm0
      subst hs0
      have hmp : mergePrev st p sz = (p, sz, st) := by
        unfold mergePrev
        cases hpe : prevEntry st.chunkSizes p with
        | none => rfl
        | some pe =>
          dsimp only
          have hgf : ¬ (pe.1 + pe.2 = p ∧
              isFreeAt st.freeChunkSets pe.2 pe.1 = true) := by
            rintro ⟨hadj, hfree⟩
            have hqm : (pe.1, pe.2) ∈ st.chunkSizes := by
              have := (prevEntry_mem hpe).1
              rwa [← Prod.mk.eta (p := pe)] at this
            exact hNa pe.1 pe.2 p (isFreeAt_freeAddr hfree) hnf
              (mem_mfind hsort hqm) hadj
          rw [if_neg hgf]
      have hmn : mergeNext st p sz = (sz, st) := by
        unfold mergeNext
        cases hne : nextEntry st.chunkSizes p with
        | none => rfl
        | some ne =>
          dsimp only
          have hgf : ¬ (p + sz = ne.1 ∧
              isFreeAt st.freeChunkSets ne.2 ne.1 = true) := by
            rintro ⟨hadj, hfree⟩
            exact hNa p sz ne.1 hnf (isFreeAt_freeAddr hfree) hp hadj
          rw [if_neg hgf]
      rw [hmp] at h
      dsimp only at h
      rw [hmn] at h
      dsimp only at h
      have hfi2 : fcsInsert st.freeChunkSets sz p = st.freeChunkSets := by
        unfold fcsInsert
        rw [hf0]
        dsimp only
        rw [if_pos hpb]
        exact minsert_self_eq hFs (mfind_mem hf0)
      rw [hfi2] at h
      have hst : st' = { st with freeChunkSets := st.freeChunkSets } :=
        (Option.some_injective _ h).symm
      rw [hst]
      exact ⟨hSep, hPos, hBel, hBase, hFs, hFb, hFi, hNa⟩
    · have h1 := mergePrev_spec st p sz ⟨hSep, hPos, hBel, hBase, hFs, hFb, hFi, hNa⟩
        hp hnf
      obtain ⟨hmid1, hbump1, hsum1, hmono1⟩ := h1
      have h2 := mergeNext_spec (mergePrev st p sz).2.2 (mergePrev st p sz).1
        (mergePrev st p sz).2.1 hmid1
      obtain ⟨hmid2, hbump2, hend2, hmono2⟩ := h2
      obtain ⟨gSep, gPos, gBel, gFs, gFb, gFi, gNa, gc, gncf, gleft⟩ := hmid2
      have hst : st' =
          { (mergeNext (mergePrev st p sz).2.2 (mergePrev st p sz).1
              (mergePrev st p sz).2.1).2 with
            freeChunkSets := fcsInsert
              (mergeNext (mergePrev st p sz).2.2 (mergePrev st p sz).1
                (mergePrev st p sz).2.1).2.freeChunkSets
              (mergeNext (mergePrev st p sz).2.2 (mergePrev st p sz).1
                (mergePrev st p sz).2.1).1
              (mergePrev st p sz).1 } :=
        (Option.some_injective _ h).symm
      rw [hst]
      refine ⟨gSep, gPos, gBel, ?_, sorted_fcsInsert gFs _ _,
        fbuckets_fcsInsert gFs gFb _ _, fincs_fcsInsert gFs gFi gc, ?_⟩
      · rw [hbump2, hbump1] at gBel ⊢ <;> try exact hBase
      · intro x sx y hx hy hmx heq
        rw [freeAddr_fcsInsert_iff gFs] at hx hy
        have hspos : 0 < (mergeNext (mergePrev st p sz).2.2 (mergePrev st p sz).1
            (mergePrev st p sz).2.1).1 := gPos _ (mfind_mem gc)
        rcases hx with hx | rfl
        · rcases hy with hy | rfl
          · exact gNa x sx y hx hy hmx heq
          · exact gleft x sx hx hmx heq
        · have hsx : sx = (mergeNext (mergePrev st p sz).2.2 (mergePrev st p sz).1
              (mergePrev st p sz).2.1).1 := by
            rw [gc] at hmx
            exact (Option.some_injective _ hmx).symm
          rcases hy with hy | rfl
          · exact hend2 y hy (by omega)
          · omega

/-- `LargeHeap::alloc` preserves the large-heap invariant. -/
theorem LH_alloc_inv {st st' : LHState} {sz pick q : Nat} (hinv : LHInv st)
    (hsz : 0 < sz) (h : LH_alloc st sz pick = some (st', q)) : LHInv st' := by
  obtain ⟨hSep, hPos, hBel, hBase, hFs, hFb, hFi, hNa⟩ := hinv
  have hsort := sorted_of_sep_pos hSep hPos
  unfold LH_alloc at h
  cases hlb : lowerBoundE st.freeChunkSets sz with
  | none =>
    rw [hlb] at h
    dsimp only at h
    have hk : kPageSize = 32768 := rfl
    have hszA : sz ≤ max 32 (sizeToPages sz) * kPageSize := by
      have h1 : sz ≤ sizeToPages sz * kPageSize := by
        simp only [sizeToPages, hk]
        omega
      have h2 : sizeToPages sz * kPageSize ≤ max 32 (sizeToPages sz) * kPageSize :=
        Nat.mul_le_mul_right _ (le_max_right _ _)
      omega
    have hnokey : ∀ x, freeAddr st.freeChunkSets x → x ≠ st.bump ∧ x < st.bump ∧
        x ≠ st.bump + sz := by
      intro x hx
      obtain ⟨sx, bkt, hmx, _, _⟩ := freeAddr_bucket hFs hFi hx
      have hxm := mfind_mem hmx
      have h1 := hBel _ hxm
      have h2 := hPos _ hxm
      dsimp only at h1 h2
      omega
    have hSep1 : Sep (minsert st.chunkSizes st.bump sz) := by
      refine pairwise_minsert hsort hSep _ _ ?_ ?_
      · intro e he hlt
        exact hBel e he
      · intro e he hlt
        have h1 := hBel e he
        have h2 := hPos e he
        omega
    have hPos1 : PosSizes (minsert st.chunkSizes st.bump sz) := by
      intro e he
      rcases (mem_minsert hsort e _ _).mp he with rfl | ⟨he', _⟩
      · exact hsz
      · exact hPos e he'
    have hsort1 : SortedKeys (minsert st.chunkSizes st.bump sz) :=
      sorted_minsert hsort _ _
    split at h
    · -- remaining ≠ 0: the residual free chunk is normalized through
      -- unlocked_dealloc from a fully invariant intermediate state
      next hrem =>
      have hmidinv : LHInv
          ⟨minsert (minsert st.chunkSizes st.bump sz) (st.bump + sz)
              (st.bump + max 32 (sizeToPages sz) * kPageSize - (st.bump + sz)),
            st.freeChunkSets, st.bump + max 32 (sizeToPages sz) * kPageSize⟩ := by
        refine ⟨?_, ?_, ?_, ?_, hFs, hFb, ?_, ?_⟩
        · refine pairwise_minsert hsort1 hSep1 _ _ ?_ ?_
          · intro e he hlt
            rcases (mem_minsert hsort e _ _).mp he with rfl | ⟨he', hne⟩
            · dsimp only
              omega
            · have := hBel e he'
              omega
          · intro e he hlt
            rcases (mem_minsert hsort e _ _).mp he with rfl | ⟨he', hne⟩
            · dsimp only at hlt ⊢
              omega
            · have h1 := hBel e he'
              have h2 := hPos e he'
              dsimp only at hlt ⊢
              omega
        · intro e he
          rcases (mem_minsert hsort1 e _ _).mp he with rfl | ⟨he', _⟩
          · dsimp only
            omega
          · rcases (mem_minsert hsort e _ _).mp he' with rfl | ⟨he'', _⟩
            · exact hsz
            · exact hPos e he''
        · intro e he
          rcases (mem_minsert hsort1 e _ _).mp he with rfl | ⟨he', _⟩
          · dsimp only
            omega
          · rcases (mem_minsert hsort e _ _).mp he' with rfl | ⟨he'', _⟩
            · dsimp only
              omega
            · have := hBel e he''
              dsimp only
              omega
        · dsimp only
          omega
        · intro e he x hx
          obtain ⟨h1, h2, h3⟩ := hnokey x ⟨e, he, hx⟩
          rw [mfind_minsert_ne _ _ _ _ h3, mfind_minsert_ne _ _ _ _ h1]
          exact hFi e he x hx
        · intro x sx y hx hy hmx heq
          obtain ⟨h1, h2, h3⟩ := hnokey x hx
          rw [mfind_minsert_ne _ _ _ _ h3, mfind_minsert_ne _ _ _ _ h1] at hmx
          exact hNa x sx y hx hy hmx heq
      split at h
      · cases h
      · next st3 heq3 =>
        injection h with h6
        injection h6 with h4 h5
        rw [← h4]
        exact unlocked_dealloc_inv hmidinv heq3
    · -- remaining = 0
      next hrem =>
      injection h with h6
      injection h6 with h4 h5
      rw [← h4]
      refine ⟨hSep1, hPos1, ?_, ?_, hFs, hFb, ?_, ?_⟩
      · intro e he
        rcases (mem_minsert hsort e _ _).mp he with rfl | ⟨he', _⟩
        · dsimp only
          omega
        · have := hBel e he'
          dsimp only
          omega
      · dsimp only
        omega
      · intro e he x hx
        obtain ⟨h1, h2, h3⟩ := hnokey x ⟨e, he, hx⟩
        rw [mfind_minsert_ne _ _ _ _ h1]
        exact hFi e he x hx
      · intro x sx y hx hy hmx heq
        obtain ⟨h1, h2, h3⟩ := hnokey x hx
        rw [mfind_minsert_ne _ _ _ _ h1] at hmx
        exact hNa x sx y hx hy hmx heq
  | some e =>
    rw [hlb] at h
    dsimp only at h
    have hmemE : (e.1, e.2) ∈ st.freeChunkSets := by
      have := (lowerBoundE_mem hlb).1
      rwa [← Prod.mk.eta (p := e)] at this
    have hszk : sz ≤ e.1 := (lowerBoundE_mem hlb).2
    have hbne : e.2 ≠ [] := (hFb _ hmemE).1
    have hlen : 0 < e.2.length := List.length_pos.mpr hbne
    have hstart_mem : e.2.getD (pick % e.2.length) 0 ∈ e.2 := by
      rw [List.getD_eq_getElem _ _ (Nat.mod_lt _ hlen)]
      exact List.getElem_mem _
    have hfa : freeAddr st.freeChunkSets (e.2.getD (pick % e.2.length) 0) :=
      ⟨_, hmemE, hstart_mem⟩
    have hma : mfind st.chunkSizes (e.2.getD (pick % e.2.length) 0) = some e.1 :=
      hFi _ hmemE _ hstart_mem
    have ham : (e.2.getD (pick % e.2.length) 0, e.1) ∈ st.chunkSizes := mfind_mem hma
    have hkpos : 0 < e.1 := hPos _ ham
    have haend : e.2.getD (pick % e.2.length) 0 + e.1 ≤ st.bump := hBel _ ham
    have hFs1 := sorted_fcsErase hFs e.1 (e.2.getD (pick % e.2.length) 0)
    have hFb1 := fbuckets_fcsErase hFs hFb e.1 (e.2.getD (pick % e.2.length) 0)
    have hFi1 : FInCS st.chunkSizes
        (fcsErase st.freeChunkSets e.1 (e.2.getD (pick % e.2.length) 0)) :=
      fincs_fcsErase hFs hFi e.1 _
    have hnfa : ¬ freeAddr
        (fcsErase st.freeChunkSets e.1 (e.2.getD (pick % e.2.length) 0))
        (e.2.getD (pick % e.2.length) 0) :=
      not_freeAddr_fcsErase hFs hFb hFi hma
    have hmono1 : ∀ x, freeAddr
        (fcsErase st.freeChunkSets e.1 (e.2.getD (pick % e.2.length) 0)) x →
        freeAddr st.freeChunkSets x :=
      fun x hx => freeAddr_fcsErase_mono hFs hx
    have hinside : ∀ x sx, mfind st.chunkSizes x = some sx →
        e.2.getD (pick % e.2.length) 0 < x →
        e.2.getD (pick % e.2.length) 0 + e.1 ≤ x := by
      intro x sx hmx hax
      exact sep_pairs hSep hPos _ ham (x, sx) (mfind_mem hmx) hax
    have hSep1 : Sep (minsert st.chunkSizes (e.2.getD (pick % e.2.length) 0) sz) := by
      refine pairwise_minsert hsort hSep _ _ ?_ ?_
      · intro e' he' hlt
        exact sep_pairs hSep hPos e' he' (e.2.getD (pick % e.2.length) 0, e.1) ham hlt
      · intro e' he' hlt
        have h7 := sep_pairs hSep hPos (e.2.getD (pick % e.2.length) 0, e.1) ham
          e' he' hlt
        dsimp only at h7 ⊢
        omega
    have hPos1 : PosSizes (minsert st.chunkSizes (e.2.getD (pick % e.2.length) 0) sz) := by
      intro e' he'
      rcases (mem_minsert hsort e' _ _).mp he' with rfl | ⟨he'', _⟩
      · exact hsz
      · exact hPos e' he''
    have hsort1 := sorted_minsert hsort (e.2.getD (pick % e.2.length) 0) sz
    have hfree_ne : ∀ x, freeAddr
        (fcsErase st.freeChunkSets e.1 (e.2.getD (pick % e.2.length) 0)) x →
        x ≠ e.2.getD (pick % e.2.length) 0 := by
      intro x hx hc
      rw [hc] at hx
      exact hnfa hx
    split at h
    · next hrem =>
      have hfree_ne2 : ∀ x, freeAddr
          (fcsErase st.freeChunkSets e.1 (e.2.getD (pick % e.2.length) 0)) x →
          x ≠ e.2.getD (pick % e.2.length) 0 + sz := by
        intro x hx hc
        obtain ⟨sx, bkt, hmx, _, _⟩ := freeAddr_bucket hFs hFi (hmono1 x hx)
        have := hinside x sx hmx (by omega)
        omega
      have hmidinv : LHInv
          ⟨minsert (minsert st.chunkSizes (e.2.getD (pick % e.2.length) 0) sz)
              (e.2.getD (pick % e.2.length) 0 + sz)
              (e.2.getD (pick % e.2.length) 0 + e.1 -
                (e.2.getD (pick % e.2.length) 0 + sz)),
            fcsErase st.freeChunkSets e.1 (e.2.getD (pick % e.2.length) 0),
            st.bump⟩ := by
        refine ⟨?_, ?_, ?_, hBase, hFs1, hFb1, ?_, ?_⟩
        · refine pairwise_minsert hsort1 hSep1 _ _ ?_ ?_
          · intro e' he' hlt
            rcases (mem_minsert hsort e' _ _).mp he' with rfl | ⟨he'', hne⟩
            · dsimp only
              omega
            · by_cases hcase : e'.1 < e.2.getD (pick % e.2.length) 0
              · have := sep_pairs hSep hPos e' he'' _ ham hcase
                omega
              · have hgt : e.2.getD (pick % e.2.length) 0 < e'.1 := by omega
                have := hinside e'.1 e'.2 (mem_mfind hsort (by
                  rwa [← Prod.mk.eta (p := e')] at he'')) hgt
                omega
          · intro e' he' hlt
            rcases (mem_minsert hsort e' _ _).mp he' with rfl | ⟨he'', hne⟩
            · try dsimp only at hlt ⊢
              omega
            · have hgt : e.2.getD (pick % e.2.length) 0 < e'.1 := by
                try dsimp only at hlt
                omega
              have := hinside e'.1 e'.2 (mem_mfind hsort (by
                rwa [← Prod.mk.eta (p := e')] at he'')) hgt
              omega
        · intro e' he'
          rcases (mem_minsert hsort1 e' _ _).mp he' with rfl | ⟨he'', _⟩
          · dsimp only
            omega
          · rcases (mem_minsert hsort e' _ _).mp he'' with rfl | ⟨he3, _⟩
            · exact hsz
            · exact hPos e' he3
        · intro e' he'
          rcases (mem_minsert hsort1 e' _ _).mp he' with rfl | ⟨he'', _⟩
          · dsimp only
            omega
          · rcases (mem_minsert hsort e' _ _).mp he'' with rfl | ⟨he3, _⟩
            · dsimp only
              omega
            · exact hBel e' he3
        · intro e' he' x hx
          have hfx := hfree_ne x ⟨e', he', hx⟩
          have hfx2 := hfree_ne2 x ⟨e', he', hx⟩
          rw [mfind_minsert_ne _ _ _ _ hfx2, mfind_minsert_ne _ _ _ _ hfx]
          exact hFi1 e' he' x hx
        · intro x sx y hx hy hmx heq
          have hx1 := hfree_ne x hx
          have hx2 := hfree_ne2 x hx
          rw [mfind_minsert_ne _ _ _ _ hx2, mfind_minsert_ne _ _ _ _ hx1] at hmx
          exact hNa x sx y (hmono1 x hx) (hmono1 y hy) hmx heq
      split at h
      · cases h
      · next st3 heq3 =>
        injection h with h6
        injection h6 with h4 h5
        rw [← h4]
        exact unlocked_dealloc_inv hmidinv heq3
    · next hrem =>
      have hek : e.1 = sz := by omega
      have ham' : (e.2.getD (pick % e.2.length) 0, sz) ∈ st.chunkSizes := by
        rw [← hek]
        exact ham
      have hmin_eq : minsert st.chunkSizes (e.2.getD (pick % e.2.length) 0) sz =
          st.chunkSizes := minsert_self_eq hsort ham'
      injection h with h6
      injection h6 with h4 h5
      rw [← h4]
      rw [hmin_eq]
      refine ⟨hSep, hPos, hBel, hBase, hFs1, hFb1, hFi1, ?_⟩
      intro x sx y hx hy hmx heq
      exact hNa x sx y (hmono1 x hx) (hmono1 y hy) hmx heq

/-- Every reachable large-heap state satisfies the invariant. -/
theorem lhreach_inv {st : LHState} (h : LHReach st) : LHInv st := by
  induction h with
  | init =>
    refine ⟨List.Pairwise.nil, ?_, ?_, le_refl _, List.Pairwise.nil, ?_, ?_, ?_⟩
    · intro e he; cases he
    · intro e he; cases he
    · intro e he; cases he
    · intro e he; cases he
    · intro x sx y hx hy hmx heq
      obtain ⟨e, he, _⟩ := hx
      cases he
  | alloc st st' sz pick q hr hsz heq ih => exact LH_alloc_inv ih hsz heq
  | dealloc st st' p hr heq ih => exact unlocked_dealloc_inv ih heq

/-! ## Blocked-deque lemmas -/

theorem modLast_length (f : β → β) : ∀ l : List β, (modLast f l).length = l.length
  | [] => rfl
  | [_] => rfl
  | _ :: b' :: bs => by
    simp only [modLast, List.length_cons]
    exact congrArg Nat.succ (modLast_length f (b' :: bs))

theorem mem_modLast (f : β → β) :
    ∀ l : List β, ∀ x ∈ modLast f l, x ∈ l ∨ ∃ a ∈ l, x = f a
  | [b], x, hx => by
    simp only [modLast, List.mem_singleton] at hx
    exact Or.inr ⟨b, List.mem_singleton_self b, hx⟩
  | b :: b' :: bs, x, hx => by
    simp only [modLast, List.mem_cons] at hx
    rcases hx with rfl | hx
    · exact Or.inl (List.mem_cons_self _ _)
    · rcases mem_modLast f (b' :: bs) x hx with h | ⟨a, ha, rfl⟩
      · exact Or.inl (List.mem_cons_of_mem _ h)
      · exact Or.inr ⟨a, List.mem_cons_of_mem _ ha, rfl⟩

theorem modLast_append_singleton (f : β → β) (b : β) :
    ∀ l : List β, modLast f (l ++ [b]) = l ++ [f b]
  | [] => rfl
  | [a] => rfl
  | a :: a' :: as => by
    have ih := modLast_append_singleton f b (a' :: as)
    show a :: modLast f ((a' :: as) ++ [b]) = a :: ((a' :: as) ++ [f b])
    rw [ih]

theorem modLast_ne_nil (f : β → β) (l : List β) (h : l ≠ []) : modLast f l ≠ [] := by
  intro hc
  apply h
  have := modLast_length f l
  rw [hc] at this
  exact List.length_eq_zero.mp this.symm

/-! Positional `getD` helpers used for reasoning about deque contents. -/

theorem getD_append_left {l l' : List β} {i : Nat} (h : i < l.length) (d : β) :
    (l ++ l').getD i d = l.getD i d := by
  simp only [List.getD_eq_getElem?_getD, List.getElem?_append, if_pos h]

theorem getD_append_right {l l' : List β} {i : Nat} (h : l.length ≤ i) (d : β) :
    (l ++ l').getD i d = l'.getD (i - l.length) d := by
  simp only [List.getD_eq_getElem?_getD, List.getElem?_append_right h]

theorem getD_take_lt {l : List β} {b i : Nat} (h : i < b) (d : β) :
    (l.take b).getD i d = l.getD i d := by
  simp only [List.getD_eq_getElem?_getD, List.getElem?_take, h, if_pos]

theorem getD_drop_eq (l : List β) (b i : Nat) (d : β) :
    (l.drop b).getD i d = l.getD (b + i) d := by
  simp only [List.getD_eq_getElem?_getD, List.getElem?_drop]

theorem getD_dropLast_lt {l : List β} {i : Nat} (h : i + 1 < l.length) (d : β) :
    l.dropLast.getD i d = l.getD i d := by
  rw [List.dropLast_eq_take]
  simp only [List.getD_eq_getElem?_getD, List.getElem?_take]
  rw [if_pos (by omega)]

theorem getD_set_ne {l : List β} {j i : Nat} (h : j ≠ i) (v d : β) :
    (l.set j v).getD i d = l.getD i d := by
  simp only [List.getD_eq_getElem?_getD, List.getElem?_set_ne h]

theorem getD_set_self {l : List β} {j : Nat} (h : j < l.length) (v d : β) :
    (l.set j v).getD j d = v := by
  have h' : j < (l.set j v).length := by simpa using h
  rw [List.getD_eq_getElem?_getD, List.getElem?_eq_getElem h', List.getElem_set_self]
  rfl

theorem modLast_getD_lt (f : β → β) : ∀ (l : List β) (i : Nat), i + 1 < l.length →
    ∀ d, (modLast f l).getD i d = l.getD i d
  | [], i, h, d => by simp at h
  | [b], i, h, d => by simp at h
  | b :: b' :: bs, 0, h, d => by
    simp only [modLast, List.getD_cons_zero]
  | b :: b' :: bs, i + 1, h, d => by
    simp only [modLast, List.getD_cons_succ]
    exact modLast_getD_lt f (b' :: bs) i
      (by simp only [List.length_cons] at h ⊢; omega) d

theorem modLast_getD_last (f : β → β) : ∀ (l : List β), l ≠ [] →
    ∀ d, (modLast f l).getD (l.length - 1) d = f (l.getD (l.length - 1) d)
  | [], h, d => absurd rfl h
  | [b], h, d => by simp [modLast]
  | b :: b' :: bs, h, d => by
    have ih := modLast_getD_last f (b' :: bs) (by simp) d
    have e1 : (b :: b' :: bs).length - 1 = ((b' :: bs).length - 1) + 1 := by
      simp only [List.length_cons]
      omega
    rw [e1]
    simp only [modLast, List.getD_cons_succ]
    exact ih

namespace BDeque

variable {α : Type} [Inhabited α]

theorem size_eq (d : BDeque α) (h : d.phead ≤ d.ptail) :
    (d.size : Int) = d.ptail - d.phead := by
  simp only [size]
  omega

theorem WF.blocks32 {d : BDeque α} (h : WF d) : ∀ b ∈ d.blocks, b.length = 32 :=
  h.2.1

theorem WF.le {d : BDeque α} (h : WF d) : d.phead ≤ d.ptail := h.1

theorem WF.count {d : BDeque α} (h : WF d) :
    (d.blocks.length : Int) = (d.phead % 32 + (d.ptail - d.phead) + 31) / 32 :=
  h.2.2.1

theorem WF.nil_reset {d : BDeque α} (h : WF d) (hb : d.blocks = []) :
    d.phead = 0 ∧ d.ptail = 0 := h.2.2.2 hb

theorem WF_initD : WF (initD (α := α)) := by
  refine ⟨le_refl 0, by simp [initD], by simp [initD], fun _ => ⟨rfl, rfl⟩⟩

/-- `push_back` preserves well-formedness. -/
theorem WF_push_back (d : BDeque α) (v : α) (h : WF d) : WF (d.push_back v) := by
  obtain ⟨h1, h2, h3, h4⟩ := h
  by_cases hb : d.ptail % 32 = 0
  · constructor
    · simp only [push_back]; omega
    constructor
    · intro b hbmem
      simp only [push_back, hb, if_pos, modLast_append_singleton] at hbmem
      rcases List.mem_append.mp hbmem with hm | hm
      · exact h2 b hm
      · simp only [List.mem_singleton] at hm
        subst hm
        simp [newBlock]
    constructor
    · simp only [push_back, hb, if_pos, modLast_append_singleton, List.length_append,
        List.length_singleton]
      push_cast
      omega
    · intro hnil
      simp only [push_back, hb, if_pos, modLast_append_singleton] at hnil
      exact absurd hnil (by simp)
  · have hne : d.blocks ≠ [] := by
      intro hc
      obtain ⟨hp, ht⟩ := h4 hc
      rw [ht] at hb
      exact hb rfl
    constructor
    · simp only [push_back]; omega
    constructor
    · intro b hbmem
      simp only [push_back, if_neg hb] at hbmem
      rcases mem_modLast _ _ b hbmem with hm | ⟨a, ha, rfl⟩
      · exact h2 b hm
      · rw [List.length_set]; exact h2 a ha
    constructor
    · simp only [push_back, if_neg hb, modLast_length]
      omega
    · intro hnil
      simp only [push_back, if_neg hb] at hnil
      exact absurd hnil (modLast_ne_nil _ _ hne)

theorem size_push_back (d : BDeque α) (v : α) (h : d.phead ≤ d.ptail) :
    (d.push_back v).size = d.size + 1 := by
  simp only [push_back, size]
  omega

/-- `dequeue_back` preserves well-formedness on a non-empty deque. -/
theorem WF_dequeue_back (d : BDeque α) (h : WF d) (hs : 1 ≤ d.size) :
    WF d.dequeue_back.2 := by
  obtain ⟨h1, h2, h3, h4⟩ := h
  have hslt : (1 : Int) ≤ d.ptail - d.phead := by simp only [size] at hs; omega
  by_cases ht : (d.ptail - 1) % 32 = 0
  · by_cases hl : d.blocks.length = 1
    · simp only [dequeue_back, if_pos ht, if_pos hl]
      exact ⟨le_refl 0, by simp, by simp, fun _ => ⟨rfl, rfl⟩⟩
    · simp only [dequeue_back, if_pos ht, if_neg hl]
      refine ⟨?_, ?_, ?_, ?_⟩
      · dsimp only
        omega
      · intro b hbmem
        dsimp only at hbmem
        exact h2 b (List.dropLast_subset _ hbmem)
      · dsimp only
        simp only [List.length_dropLast]
        omega
      · intro hnil
        dsimp only at hnil
        have hlen := congrArg List.length hnil
        simp only [List.length_dropLast, List.length_nil] at hlen
        omega
  · simp only [dequeue_back, if_neg ht]
    refine ⟨?_, ?_, ?_, ?_⟩
    · dsimp only
      omega
    · intro b hbmem
      dsimp only at hbmem
      exact h2 b hbmem
    · dsimp only
      omega
    · intro hnil
      dsimp only at hnil
      obtain ⟨hp, hq⟩ := h4 hnil
      exact absurd hslt (by rw [hp, hq]; decide)

theorem size_dequeue_back (d : BDeque α) (h : WF d) (hs : 1 ≤ d.size) :
    d.dequeue_back.2.size = d.size - 1 := by
  obtain ⟨h1, h2, h3, h4⟩ := h
  simp only [size] at hs ⊢
  by_cases ht : (d.ptail - 1) % 32 = 0
  · by_cases hl : d.blocks.length = 1
    · simp only [dequeue_back, if_pos ht, if_pos hl]
      rw [hl] at h3
      omega
    · simp only [dequeue_back, if_pos ht, if_neg hl]
      omega
  · simp only [dequeue_back, if_neg ht]
    omega

/-- The first component of `splice_front b` has `32·b` elements. -/
theorem size_splice_fst (d : BDeque α) (b : Nat) : (d.splice_front b).1.size = 32 * b := by
  simp only [splice_front, size]
  omega

theorem size_splice_snd (d : BDeque α) (b : Nat) (h : 32 * (b : Int) ≤ d.ptail - d.phead) :
    (d.splice_front b).2.size = d.size - 32 * b := by
  simp only [splice_front, size]
  omega

/-- A convenient introduction rule for `WF` of a literal state. -/
theorem WF_mk {bs : List (List α)} {h t : Int} (H1 : h ≤ t)
    (H2 : ∀ b ∈ bs, b.length = 32)
    (H3 : (bs.length : Int) = (h % 32 + (t - h) + 31) / 32)
    (H4 : bs = [] → h = 0 ∧ t = 0) : WF (⟨bs, h, t⟩ : BDeque α) :=
  ⟨H1, H2, H3, H4⟩

/-- `splice_front` preserves well-formedness of both parts when `phead` is
block-aligned and at least one block beyond the spliced ones remains. -/
theorem WF_splice_fst (d : BDeque α) (b : Nat) (h : WF d) (ha : d.phead % 32 = 0)
    (hb : 1 ≤ b) (hc : b + 1 ≤ d.blocks.length) : WF (d.splice_front b).1 := by
  obtain ⟨h1, h2, h3, h4⟩ := h
  refine WF_mk ?_ ?_ ?_ ?_
  · omega
  · intro x hx
    exact h2 x (List.take_subset b d.blocks hx)
  · simp only [List.length_take]
    omega
  · intro hnil
    have hlen := congrArg List.length hnil
    simp only [List.length_take, List.length_nil] at hlen
    omega

theorem WF_splice_snd (d : BDeque α) (b : Nat) (h : WF d) (ha : d.phead % 32 = 0)
    (hc : b + 1 ≤ d.blocks.length) : WF (d.splice_front b).2 := by
  obtain ⟨h1, h2, h3, h4⟩ := h
  refine WF_mk ?_ ?_ ?_ ?_
  · omega
  · intro x hx
    exact h2 x (List.drop_subset b d.blocks hx)
  · simp only [List.length_drop]
    omega
  · intro hnil
    have hlen := congrArg List.length hnil
    simp only [List.length_drop, List.length_nil] at hlen
    omega

/-- `merge_front` preserves well-formedness when the preconditions hold:
`self.phead` and `other.ptail` block-aligned (only needed when `self` is
non-empty). -/
theorem WF_merge_front (d other : BDeque α) (hd : WF d) (ho : WF other)
    (ha : d.phead % 32 = 0) (hb : other.ptail % 32 = 0) :
    WF (d.merge_front other) := by
  obtain ⟨h1, h2, h3, h4⟩ := hd
  obtain ⟨g1, g2, g3, g4⟩ := ho
  by_cases hemp : d.blocks.isEmpty
  · simpa only [merge_front, if_pos hemp] using ⟨g1, g2, g3, g4⟩
  · have hne : d.blocks ≠ [] := by
      intro hc; rw [hc] at hemp; exact hemp rfl
    simp only [merge_front, if_neg hemp]
    refine WF_mk ?_ ?_ ?_ ?_
    · omega
    · intro x hx
      rcases List.mem_append.mp hx with hm | hm
      · exact g2 x hm
      · exact h2 x hm
    · simp only [List.length_append]
      omega
    · intro hnil
      exact absurd (List.append_eq_nil.mp hnil).2 hne

theorem size_merge_front (d other : BDeque α) (hd : WF d) (ho : WF other) :
    (d.merge_front other).size = d.size + other.size := by
  obtain ⟨h1, h2, h3, h4⟩ := hd
  obtain ⟨g1, g2, g3, g4⟩ := ho
  by_cases hemp : d.blocks.isEmpty
  · have hnil : d.blocks = [] := List.isEmpty_iff.mp hemp
    obtain ⟨hp, ht⟩ := h4 hnil
    simp only [merge_front, if_pos hemp, size, hp, ht]
    omega
  · simp only [merge_front, if_neg hemp, size]
    omega

/-- `steal_front` on an aligned deque with at least one full block. -/
theorem WF_steal_fst (d : BDeque α) (h : WF d) (hne : d.blocks ≠ []) :
    WF (d.steal_front).1 := by
  obtain ⟨h1, h2, h3, h4⟩ := h
  have hlen : 1 ≤ d.blocks.length := List.length_pos.mpr hne
  refine WF_mk ?_ ?_ ?_ ?_
  · omega
  · intro x hx
    exact h2 x (List.take_subset 1 d.blocks hx)
  · simp only [List.length_take]
    omega
  · intro hnil
    have hl := congrArg List.length hnil
    simp only [List.length_take, List.length_nil] at hl
    omega

theorem WF_steal_snd (d : BDeque α) (h : WF d) (ha : d.phead % 32 = 0)
    (hs : 32 ≤ d.size) : WF (d.steal_front).2 := by
  obtain ⟨h1, h2, h3, h4⟩ := h
  have hs' : (32 : Int) ≤ d.ptail - d.phead := by simp only [size] at hs; omega
  by_cases hl : d.blocks.length = 1
  · simp only [steal_front, if_pos hl]
    exact WF_mk (le_refl 0) (by simp) (by simp) (fun _ => ⟨rfl, rfl⟩)
  · simp only [steal_front, if_neg hl]
    refine WF_mk ?_ ?_ ?_ ?_
    · omega
    · intro x hx
      exact h2 x (List.drop_subset 1 d.blocks hx)
    · simp only [List.length_drop]
      omega
    · intro hnil
      have hlen := congrArg List.length hnil
      simp only [List.length_drop, List.length_nil] at hlen
      omega

theorem size_steal_fst (d : BDeque α) : (d.steal_front).1.size = 32 := by
  simp [steal_front, size]

theorem size_steal_snd (d : BDeque α) (h : WF d) (ha : d.phead % 32 = 0)
    (hs : 32 ≤ d.size) : (d.steal_front).2.size = d.size - 32 := by
  obtain ⟨h1, h2, h3, h4⟩ := h
  have hs' : (32 : Int) ≤ d.ptail - d.phead := by simp only [size] at hs; omega
  by_cases hl : d.blocks.length = 1
  · have hl' : (d.blocks.length : Int) = 1 := by rw [hl]; rfl
    simp only [steal_front, if_pos hl, size]
    omega
  · simp only [steal_front, if_neg hl, size]
    omega

/-! Positional content lemmas: how each operation moves elements around,
expressed through `nth`/`DAll`. -/

theorem off_lt (d : BDeque α) : d.off < 32 := by
  simp only [off]
  omega

theorem off_eq_zero {d : BDeque α} (ha : d.phead % 32 = 0) : d.off = 0 := by
  simp only [off]
  omega

/-- The block count as a `Nat` equation over `off` and `size`. -/
theorem WF.count' {d : BDeque α} (h : WF d) :
    d.blocks.length = (d.off + d.size + 31) / 32 := by
  have h1 := h.count
  have h2 := h.le
  simp only [off, size]
  omega

theorem ptail_mod (d : BDeque α) (h : d.phead ≤ d.ptail) :
    (d.ptail % 32).toNat = (d.off + d.size) % 32 := by
  simp only [off, size]
  omega

/-- With a block-aligned head, a non-empty block list means at least one
live element (this is why the `dequeue_back` reset bug of C3 cannot fire
inside the allocator's own usage). -/
theorem WF.size_pos_of_ne_nil {d : BDeque α} (h : WF d) (ha : d.phead % 32 = 0)
    (hb : d.blocks ≠ []) : 1 ≤ d.size := by
  have h1 := h.count
  have h2 := h.le
  have h3 : 1 ≤ d.blocks.length := List.length_pos.mpr hb
  simp only [size]
  omega

theorem empty_eq_initD {d : BDeque α} (h : WF d) (hb : d.blocks = []) :
    d = initD := by
  obtain ⟨hp, ht⟩ := h.nil_reset hb
  cases d with
  | mk bs ph pt =>
    dsimp only at hb hp ht
    subst hb
    subst hp
    subst ht
    rfl

theorem blockLen {d : BDeque α} (h : WF d) {j : Nat} (hj : j < d.blocks.length) :
    (d.blocks.getD j []).length = 32 := by
  have hm : d.blocks.getD j [] ∈ d.blocks := by
    simp only [List.getD_eq_getElem?_getD, List.getElem?_eq_getElem hj, Option.getD_some]
    exact List.getElem_mem hj
  exact h.blocks32 _ hm

theorem nth_push_back_lt {d : BDeque α} (h : WF d) (v : α) {i : Nat} (hi : i < d.size) :
    (d.push_back v).nth i = d.nth i := by
  have hcnt := h.count'
  have hle := h.le
  have hofflt := off_lt d
  have hpt := ptail_mod d hle
  have hoffeq : (d.push_back v).off = d.off := rfl
  by_cases hb : d.ptail % 32 = 0
  · have hmod : (d.off + d.size) % 32 = 0 := by omega
    have hidx : (d.off + i) / 32 < d.blocks.length := by omega
    have hblocks : (d.push_back v).blocks
        = d.blocks ++ [(newBlock (α := α)).set ((d.ptail % 32).toNat) v] := by
      simp only [push_back, if_pos hb, modLast_append_singleton]
    simp only [nth, hoffeq, hblocks]
    rw [getD_append_left hidx]
  · have hne : d.blocks ≠ [] := by
      intro hc
      obtain ⟨hp, ht⟩ := h.nil_reset hc
      rw [ht] at hb
      exact hb rfl
    have hmod : (d.off + d.size) % 32 ≠ 0 := by omega
    have hlen1 : 1 ≤ d.blocks.length := List.length_pos.mpr hne
    have hblocks : (d.push_back v).blocks
        = modLast (fun b => b.set ((d.ptail % 32).toNat) v) d.blocks := by
      simp only [push_back, if_neg hb]
    simp only [nth, hoffeq, hblocks]
    rcases Nat.lt_or_ge ((d.off + i) / 32) (d.blocks.length - 1) with hc | hc
    · rw [modLast_getD_lt _ _ _ (by omega)]
    · have hceq : (d.off + i) / 32 = d.blocks.length - 1 := by omega
      rw [hceq, modLast_getD_last _ _ hne]
      rw [getD_set_ne (by omega)]

theorem nth_push_back_self {d : BDeque α} (h : WF d) (v : α) :
    (d.push_back v).nth d.size = v := by
  have hcnt := h.count'
  have hle := h.le
  have hofflt := off_lt d
  have hpt := ptail_mod d hle
  have hoffeq : (d.push_back v).off = d.off := rfl
  by_cases hb : d.ptail % 32 = 0
  · have hmod : (d.off + d.size) % 32 = 0 := by omega
    have hs0 : (d.ptail % 32).toNat = 0 := by omega
    have hidx : (d.off + d.size) / 32 = d.blocks.length := by omega
    have hblocks : (d.push_back v).blocks
        = d.blocks ++ [(newBlock (α := α)).set ((d.ptail % 32).toNat) v] := by
      simp only [push_back, if_pos hb, modLast_append_singleton]
    simp only [nth, hoffeq, hblocks, hs0]
    rw [hidx, getD_append_right (le_refl _), Nat.sub_self, List.getD_cons_zero, hmod]
    exact getD_set_self (by simp [newBlock]) v default
  · have hne : d.blocks ≠ [] := by
      intro hc
      obtain ⟨hp, ht⟩ := h.nil_reset hc
      rw [ht] at hb
      exact hb rfl
    have hmod : (d.off + d.size) % 32 ≠ 0 := by omega
    have hlen1 : 1 ≤ d.blocks.length := List.length_pos.mpr hne
    have hidx : (d.off + d.size) / 32 = d.blocks.length - 1 := by omega
    have hblocks : (d.push_back v).blocks
        = modLast (fun b => b.set ((d.ptail % 32).toNat) v) d.blocks := by
      simp only [push_back, if_neg hb]
    simp only [nth, hoffeq, hblocks]
    rw [hidx, modLast_getD_last _ _ hne, hpt]
    exact getD_set_self (by rw [blockLen h (by omega)]; omega) v default

theorem dequeue_back_fst {d : BDeque α} (h : WF d) (hs : 1 ≤ d.size) :
    d.dequeue_back.1 = d.nth (d.size - 1) := by
  have hcnt := h.count'
  have hle := h.le
  have hofflt := off_lt d
  have hs' : 1 ≤ (d.ptail - d.phead).toNat := hs
  have hfst : d.dequeue_back.1
      = (d.blocks.getD (d.blocks.length - 1) []).getD (((d.ptail - 1) % 32).toNat)
          default := by
    by_cases h1 : (d.ptail - 1) % 32 = 0
    · by_cases h2 : d.blocks.length = 1
      · simp only [dequeue_back, if_pos h1, if_pos h2]
      · simp only [dequeue_back, if_pos h1, if_neg h2]
    · simp only [dequeue_back, if_neg h1]
  have e1 : ((d.ptail - 1) % 32).toNat = (d.off + (d.size - 1)) % 32 := by
    simp only [off, size]
    omega
  have e2 : d.blocks.length - 1 = (d.off + (d.size - 1)) / 32 := by
    simp only [off, size] at hcnt hs' ⊢
    omega
  rw [hfst, e1, e2]
  rfl

theorem nth_dequeue_back {d : BDeque α} (h : WF d) (hs : 1 ≤ d.size) {i : Nat}
    (hi : i < d.size - 1) : d.dequeue_back.2.nth i = d.nth i := by
  have hcnt := h.count'
  have hle := h.le
  have hofflt := off_lt d
  have hs' : 1 ≤ (d.ptail - d.phead).toNat := hs
  have hi' : i < (d.ptail - d.phead).toNat - 1 := hi
  by_cases h1 : (d.ptail - 1) % 32 = 0
  · by_cases h2 : d.blocks.length = 1
    · exfalso
      simp only [off, size] at hcnt
      omega
    · have hblocks : d.dequeue_back.2.blocks = d.blocks.dropLast := by
        simp only [dequeue_back, if_pos h1, if_neg h2]
      have hoffeq : d.dequeue_back.2.off = d.off := by
        simp only [dequeue_back, if_pos h1, if_neg h2, off]
      have hside : (d.off + i) / 32 + 1 < d.blocks.length := by
        simp only [off, size] at hcnt ⊢
        omega
      simp only [nth, hblocks, hoffeq]
      rw [getD_dropLast_lt hside]
  · have hblocks : d.dequeue_back.2.blocks = d.blocks := by
      simp only [dequeue_back, if_neg h1]
    have hoffeq : d.dequeue_back.2.off = d.off := by
      simp only [dequeue_back, if_neg h1, off]
    simp only [nth, hblocks, hoffeq]

theorem phead_push_back (d : BDeque α) (v : α) : (d.push_back v).phead = d.phead :=
  rfl

theorem phead_dequeue_back (d : BDeque α) (ha : d.phead % 32 = 0) :
    d.dequeue_back.2.phead % 32 = 0 := by
  by_cases h1 : (d.ptail - 1) % 32 = 0
  · by_cases h2 : d.blocks.length = 1
    · simp only [dequeue_back, if_pos h1, if_pos h2]
      decide
    · simp only [dequeue_back, if_pos h1, if_neg h2]
      exact ha
  · simp only [dequeue_back, if_neg h1]
    exact ha

theorem phead_steal_snd (d : BDeque α) (ha : d.phead % 32 = 0) :
    (d.steal_front).2.phead % 32 = 0 := by
  by_cases hl : d.blocks.length = 1
  · simp only [steal_front, if_pos hl]
    decide
  · simp only [steal_front, if_neg hl]
    omega

theorem phead_merge_front (d other : BDeque α) (ha : d.phead % 32 = 0)
    (hq : other.phead % 32 = 0) (hb : other.ptail % 32 = 0) :
    (d.merge_front other).phead % 32 = 0 := by
  by_cases hemp : d.blocks.isEmpty
  · simp only [merge_front, if_pos hemp]
    exact hq
  · simp only [merge_front, if_neg hemp]
    omega

theorem DAll_initD {P : α → Prop} : DAll P (initD (α := α)) := by
  intro i hi
  simp only [initD, size] at hi
  omega

theorem DAll_imp {P Q : α → Prop} (h : ∀ a, P a → Q a) {d : BDeque α}
    (hd : DAll P d) : DAll Q d :=
  fun i hi => h _ (hd i hi)

theorem DAll_push_back {P : α → Prop} {d : BDeque α} (h : WF d) (hd : DAll P d)
    {v : α} (hv : P v) : DAll P (d.push_back v) := by
  intro i hi
  rw [size_push_back d v h.le] at hi
  rcases Nat.lt_or_ge i d.size with hlt | hge
  · rw [nth_push_back_lt h v hlt]
    exact hd i hlt
  · have hieq : i = d.size := by omega
    subst hieq
    rw [nth_push_back_self h v]
    exact hv

theorem DAll_dequeue_back {P : α → Prop} {d : BDeque α} (h : WF d) (hs : 1 ≤ d.size)
    (hd : DAll P d) : P d.dequeue_back.1 ∧ DAll P d.dequeue_back.2 := by
  constructor
  · rw [dequeue_back_fst h hs]
    exact hd _ (by omega)
  · intro i hi
    rw [size_dequeue_back d h hs] at hi
    rw [nth_dequeue_back h hs hi]
    exact hd i (by omega)

theorem DAll_splice_fst {P : α → Prop} {d : BDeque α} (h : WF d)
    (ha : d.phead % 32 = 0) {b : Nat} (hb : 32 * b ≤ d.size) (hd : DAll P d) :
    DAll P (d.splice_front b).1 := by
  intro i hi
  rw [size_splice_fst] at hi
  have ho := off_eq_zero ha
  have hoffs : (d.splice_front b).1.off = 0 := rfl
  have hfb : (d.splice_front b).1.blocks = d.blocks.take b := rfl
  simp only [nth, hoffs, hfb, Nat.zero_add]
  rw [getD_take_lt (by omega)]
  have hmem := hd i (by omega)
  simp only [nth, ho, Nat.zero_add] at hmem
  exact hmem

theorem DAll_splice_snd {P : α → Prop} {d : BDeque α} (h : WF d)
    (ha : d.phead % 32 = 0) {b : Nat} (hb : 32 * (b : Int) ≤ d.ptail - d.phead)
    (hd : DAll P d) : DAll P (d.splice_front b).2 := by
  intro i hi
  rw [size_splice_snd d b hb] at hi
  have ho := off_eq_zero ha
  have hoffs : (d.splice_front b).2.off = 0 := by
    simp only [splice_front, off]
    omega
  have hfb : (d.splice_front b).2.blocks = d.blocks.drop b := rfl
  simp only [nth, hoffs, hfb, Nat.zero_add]
  rw [getD_drop_eq]
  have hq : b + i / 32 = (32 * b + i) / 32 := by omega
  have hr : i % 32 = (32 * b + i) % 32 := by omega
  rw [hq, hr]
  have hmem := hd (32 * b + i) (by simp only [size] at hi ⊢; omega)
  simp only [nth, ho, Nat.zero_add] at hmem
  exact hmem

theorem DAll_steal_fst {P : α → Prop} {d : BDeque α} (h : WF d)
    (ha : d.phead % 32 = 0) (hs : 32 ≤ d.size) (hd : DAll P d) :
    DAll P (d.steal_front).1 := by
  intro i hi
  rw [size_steal_fst] at hi
  have ho := off_eq_zero ha
  have hoffs : (d.steal_front).1.off = 0 := rfl
  have hfb : (d.steal_front).1.blocks = d.blocks.take 1 := rfl
  simp only [nth, hoffs, hfb, Nat.zero_add]
  rw [getD_take_lt (by omega)]
  have hmem := hd i (by omega)
  simp only [nth, ho, Nat.zero_add] at hmem
  exact hmem

theorem DAll_steal_snd {P : α → Prop} {d : BDeque α} (h : WF d)
    (ha : d.phead % 32 = 0) (hs : 32 ≤ d.size) (hd : DAll P d) :
    DAll P (d.steal_front).2 := by
  intro i hi
  rw [size_steal_snd d h ha hs] at hi
  by_cases hl : d.blocks.length = 1
  · exfalso
    have hcnt := h.count'
    have ho := off_eq_zero ha
    rw [ho] at hcnt
    omega
  · have hoffs : (d.steal_front).2.off = 0 := by
      simp only [steal_front, if_neg hl, off]
      omega
    have hfb : (d.steal_front).2.blocks = d.blocks.drop 1 := by
      simp only [steal_front, if_neg hl]
    have ho := off_eq_zero ha
    simp only [nth, hoffs, hfb, Nat.zero_add]
    rw [getD_drop_eq]
    have hq : 1 + i / 32 = (32 + i) / 32 := by omega
    have hr : i % 32 = (32 + i) % 32 := by omega
    rw [hq, hr]
    have hmem := hd (32 + i) (by omega)
    simp only [nth, ho, Nat.zero_add] at hmem
    exact hmem

theorem DAll_merge {P : α → Prop} {d other : BDeque α} (hd : WF d) (ho : WF other)
    (ha : d.phead % 32 = 0) (hb : other.ptail % 32 = 0)
    (h1 : DAll P d) (h2 : DAll P other) : DAll P (d.merge_front other) := by
  by_cases hemp : d.blocks.isEmpty
  · intro i hi
    simp only [merge_front, if_pos hemp] at hi ⊢
    exact h2 i hi
  · intro i hi
    rw [size_merge_front d other hd ho] at hi
    have hcnt := hd.count'
    have hocnt := ho.count'
    have hdo := off_eq_zero ha
    have hole := ho.le
    have hoptm := ptail_mod other hole
    have hofflt := off_lt other
    have hmod : (other.off + other.size) % 32 = 0 := by omega
    have hblocks : (d.merge_front other).blocks = other.blocks ++ d.blocks := by
      simp only [merge_front, if_neg hemp]
    have hoffeq : (d.merge_front other).off = other.off := by
      simp only [merge_front, if_neg hemp, off]
      omega
    simp only [nth, hblocks, hoffeq]
    rcases Nat.lt_or_ge i other.size with hlt | hge
    · have hidx : (other.off + i) / 32 < other.blocks.length := by omega
      rw [getD_append_left hidx]
      exact h2 i hlt
    · have hidx2 : (other.off + i) / 32
          = other.blocks.length + (i - other.size) / 32 := by omega
      have hslot : (other.off + i) % 32 = (i - other.size) % 32 := by omega
      rw [hidx2, hslot, getD_append_right (by omega)]
      have hred : other.blocks.length + (i - other.size) / 32 - other.blocks.length
          = (i - other.size) / 32 := by omega
      rw [hred]
      have hmem := h1 (i - other.size) (by omega)
      simp only [nth, hdo, Nat.zero_add] at hmem
      exact hmem

end BDeque

/-! ## Transfer-loop lemmas -/

/-- The back-to-back element transfer loop preserves well-formedness and
moves exactly `k` elements. -/
theorem moveBack_spec : ∀ (k : Nat) (dst src : BDeque Nat), BDeque.WF dst →
    BDeque.WF src → k ≤ src.size →
    BDeque.WF (moveBack dst src k).1 ∧ BDeque.WF (moveBack dst src k).2 ∧
      (moveBack dst src k).1.size = dst.size + k ∧
      (moveBack dst src k).2.size = src.size - k
  | 0, dst, src, hd, hs, hk => ⟨hd, hs, by simp [moveBack], by simp [moveBack]⟩
  | k + 1, dst, src, hd, hs, hk => by
    have h1 : 1 ≤ src.size := by omega
    have hs' := BDeque.WF_dequeue_back src hs h1
    have hsz' := BDeque.size_dequeue_back src hs h1
    have hd' := BDeque.WF_push_back dst src.dequeue_back.1 hd
    have hdz' := BDeque.size_push_back dst src.dequeue_back.1 hd.le
    obtain ⟨iw1, iw2, is1, is2⟩ := moveBack_spec k (dst.push_back src.dequeue_back.1)
      src.dequeue_back.2 hd' hs' (by omega)
    refine ⟨iw1, iw2, ?_, ?_⟩
    · rw [show moveBack dst src (k + 1) =
        moveBack (dst.push_back src.dequeue_back.1) src.dequeue_back.2 k from rfl]
      omega
    · rw [show moveBack dst src (k + 1) =
        moveBack (dst.push_back src.dequeue_back.1) src.dequeue_back.2 k from rfl]
      omega

/-- Content/alignment refinement of the transfer loop: values stay in `P`,
the destination's `phead` is untouched, and the source keeps block
alignment. -/
theorem moveBack_full {P : Nat → Prop} : ∀ (k : Nat) (dst src : BDeque Nat),
    BDeque.WF dst → BDeque.WF src → k ≤ src.size →
    BDeque.DAll P dst → BDeque.DAll P src →
    BDeque.DAll P (moveBack dst src k).1 ∧ BDeque.DAll P (moveBack dst src k).2 ∧
      (moveBack dst src k).1.phead = dst.phead ∧
      (src.phead % 32 = 0 → (moveBack dst src k).2.phead % 32 = 0)
  | 0, dst, src, hwd, hws, hk, hd, hs => ⟨hd, hs, rfl, fun h => h⟩
  | k + 1, dst, src, hwd, hws, hk, hd, hs => by
    have h1 : 1 ≤ src.size := by omega
    obtain ⟨hv, hs2⟩ := BDeque.DAll_dequeue_back hws h1 hs
    have hws' := BDeque.WF_dequeue_back src hws h1
    have hsz' := BDeque.size_dequeue_back src hws h1
    have hwd' := BDeque.WF_push_back dst src.dequeue_back.1 hwd
    have hd' := BDeque.DAll_push_back hwd hd hv
    obtain ⟨i1, i2, i3, i4⟩ := moveBack_full k (dst.push_back src.dequeue_back.1)
      src.dequeue_back.2 hwd' hws' (by omega) hd' hs2
    refine ⟨i1, i2, ?_, ?_⟩
    · exact i3.trans (BDeque.phead_push_back dst _)
    · intro hal
      exact i4 (BDeque.phead_dequeue_back src hal)

/-- The bump-window fanout loop: pushes `k` values `start + j·cs`, keeping
well-formedness, the element predicate, and `phead`. -/
theorem pushRange_full {P : Nat → Prop} : ∀ (k : Nat) (dst : BDeque Nat) (start cs : Nat),
    BDeque.WF dst → BDeque.DAll P dst → (∀ j, j < k → P (start + j * cs)) →
    BDeque.WF (pushRange dst start cs k) ∧
      (pushRange dst start cs k).size = dst.size + k ∧
      BDeque.DAll P (pushRange dst start cs k) ∧
      (pushRange dst start cs k).phead = dst.phead
  | 0, dst, start, cs, hw, hd, hP => ⟨hw, rfl, hd, rfl⟩
  | k + 1, dst, start, cs, hw, hd, hP => by
    have hP0 : P start := by
      have h0 := hP 0 (by omega)
      simpa using h0
    have hw' := BDeque.WF_push_back dst start hw
    have hd' := BDeque.DAll_push_back hw hd hP0
    have hsz' := BDeque.size_push_back dst start hw.le
    have hP' : ∀ j, j < k → P (start + cs + j * cs) := by
      intro j hj
      have hPj := hP (j + 1) (by omega)
      have e : start + (j + 1) * cs = start + cs + j * cs := by
        rw [Nat.succ_mul]
        omega
      rwa [e] at hPj
    obtain ⟨i1, i2, i3, i4⟩ := pushRange_full k (dst.push_back start) (start + cs) cs
      hw' hd' hP'
    refine ⟨i1, ?_, i3, i4.trans (BDeque.phead_push_back dst start)⟩
    · rw [show pushRange dst start cs (k + 1)
        = pushRange (dst.push_back start) (start + cs) cs k from rfl]
      omega

/-! ## C1: bulkDealloc element accounting -/

/-- C1, counterexample.  With a source deque of two full blocks (64
elements, `phead = 0`) and an empty recycled deque, `bulkDealloc(src, 33)`
splices only `⌊33/32⌋ = 1` whole block: the recycled deque grows by 32, not
33, and the source shrinks by 32, not 33 — even though `n = 33 ≤ 64 =
src.size()` and all splice/merge preconditions hold. -/
theorem C1_counterexample :
    c1Src.size = 64 ∧ 33 ≤ c1Src.size ∧ c1Src.phead % 32 = 0 ∧
      33 / 32 + 1 ≤ c1Src.blocks.length ∧ c1Cfl.freeChunks.size = 0 ∧
      (c1Cfl.bulkDealloc c1Src 33).1.freeChunks.size = 32 ∧
      (c1Cfl.bulkDealloc c1Src 33).2.size = 32 ∧
      (c1Cfl.bulkDealloc c1Src 33).1.freeChunks.size ≠ c1Cfl.freeChunks.size + 33 ∧
      (c1Cfl.bulkDealloc c1Src 33).2.size ≠ c1Src.size - 33 := by
  refine ⟨by decide, by decide, by decide, by decide, by decide, by decide,
    by decide, by decide, by decide⟩

/-- C1, amended: `bulkDealloc(src, n)` moves exactly `n` elements from `src`
to the recycled deque `freeChunks` when `n < 32`, and `32·⌊n/32⌋` elements
(whole blocks only; the residue `n mod 32` stays in `src`) when `n ≥ 32`.
Hypotheses: both deques well-formed with block-aligned `phead` (as on every
call the allocator makes), `n ≤ src.size()`, and the splice precondition
that `src` retains a block beyond the spliced ones. -/
theorem C1_bulkDealloc_moves (cf : CFL) (src : BDeque Nat) (n : Nat)
    (hws : BDeque.WF src) (hwf : BDeque.WF cf.freeChunks)
    (hsa : src.phead % 32 = 0) (hfa : cf.freeChunks.phead % 32 = 0)
    (hn : n ≤ src.size)
    (hblocks : 32 ≤ n → n / 32 + 1 ≤ src.blocks.length) :
    (cf.bulkDealloc src n).1.freeChunks.size =
        cf.freeChunks.size + (if 32 ≤ n then 32 * (n / 32) else n) ∧
      (cf.bulkDealloc src n).2.size =
        src.size - (if 32 ≤ n then 32 * (n / 32) else n) := by
  by_cases h32 : 32 ≤ n
  · have hb1 : 1 ≤ n / 32 := by omega
    have hbl := hblocks h32
    have hsplf := BDeque.WF_splice_fst src (n / 32) hws hsa hb1 hbl
    have hsplsz := BDeque.size_splice_fst src (n / 32)
    have hint : 32 * ((n / 32 : Nat) : Int) ≤ src.ptail - src.phead := by
      have := BDeque.size_eq src hws.le
      have h1 : 32 * (n / 32) ≤ src.size := by omega
      omega
    have hsnd := BDeque.size_splice_snd src (n / 32) hint
    have hmrg := BDeque.size_merge_front cf.freeChunks (src.splice_front (n / 32)).1
      hwf hsplf
    simp only [CFL.bulkDealloc, if_pos h32]
    constructor
    · dsimp only
      rw [hmrg, hsplsz]
    · dsimp only
      rw [hsnd]
  · have hmv := moveBack_spec n cf.freeChunks src hwf hws hn
    simp only [CFL.bulkDealloc, if_neg h32]
    exact ⟨by rw [hmv.2.2.1], by rw [hmv.2.2.2]⟩

/-- C1, witness: the amended statement applied at the concrete two-block
source deque with `n = 33`. -/
theorem C1_bulkDealloc_moves_witness :
    (c1Cfl.bulkDealloc c1Src 33).1.freeChunks.size =
        c1Cfl.freeChunks.size + (if 32 ≤ 33 then 32 * (33 / 32) else 33) ∧
      (c1Cfl.bulkDealloc c1Src 33).2.size =
        c1Src.size - (if 32 ≤ 33 then 32 * (33 / 32) else 33) :=
  C1_bulkDealloc_moves c1Cfl c1Src 33 ⟨by decide, by decide, by decide, by decide⟩
    ⟨by decide, by decide, by decide, by decide⟩ (by decide)
    (by decide) (by decide) (fun _ => by decide)

/-! ## C5: valid_chunk range test -/

/-- C5, counterexample.  The claim says `valid_chunk p` is true iff
`trackedBase ≤ p < trackedBump`.  At `p = trackedBump` (concretely with the
initial bump `trackedBump = trackedBase`) the source's test
`ptr >= trackedBase && ptr <= gs.trackedBump` returns `true`, yet
`p < trackedBump` is false: the upper bound is inclusive, so `valid_chunk`
does return true for the one address just past the reserved bytes. -/
theorem C5_counterexample :
    valid_chunk trackedBase trackedBase = true ∧
      ¬ (trackedBase ≤ trackedBase ∧ trackedBase < trackedBase) := by
  refine ⟨by decide, ?_⟩
  rintro ⟨-, h⟩
  exact lt_irrefl _ h

/-- C5, amended: for every address `p` and bump value, `valid_chunk`
returns true if and only if `trackedBase ≤ p ≤ trackedBump` — the upper
bound of the ever-reserved range is *inclusive*. -/
theorem C5_valid_chunk_iff (trackedBump p : Nat) :
    valid_chunk trackedBump p = true ↔ trackedBase ≤ p ∧ p ≤ trackedBump := by
  simp [valid_chunk]

/-! ## C6: per-class elemsPerFetch at bootstrap -/

/-- C6, counterexample.  The claim says bootstrap uses
`clamp(⌈32768 / (64·cl)⌉, 2, 32)`.  At class `cl = 255` the source computes
`32768 / 16320 = 2` (flooring division) and clamps to `2`, while the claimed
ceiling formula gives `⌈32768 / 16320⌉ = 3`. -/
theorem C6_counterexample :
    bootElemsPerFetch 255 = 2 ∧ claimedElemsPerFetchCeil 255 = 3 ∧
      bootElemsPerFetch 255 ≠ claimedElemsPerFetchCeil 255 := by
  refine ⟨by decide, by decide, by decide⟩

/-- C6, amended: for every size class `cl ∈ [1, 255]`, bootstrap constructs
the central free list of class `cl` with `elemsPerFetch` equal to the
*floor* of 32 KiB divided by the class's chunk size, clamped to `[2, 32]`. -/
theorem C6_elemsPerFetch_eq (cl : Nat) (h1 : 1 ≤ cl) (h2 : cl ≤ 255) :
    bootElemsPerFetch cl = clampedFloorFetch cl := by
  unfold bootElemsPerFetch clampedFloorFetch
  omega

/-- C6, witness: the amended statement applied at the concrete class 17. -/
theorem C6_elemsPerFetch_eq_witness :
    1 ≤ 17 ∧ 17 ≤ 255 ∧ bootElemsPerFetch 17 = clampedFloorFetch 17 :=
  ⟨by decide, by decide, C6_elemsPerFetch_eq 17 (by decide) (by decide)⟩

/-! ## C3: dequeue_back vs back + pop_back -/

/-- C3.  The source comments `dequeue_back` with "Equivalent to back() +
pop_back()", and the claim asserts identical resulting states, but on a
non-empty deque whose `phead` is not block-aligned the two diverge when the
last element is removed: from the state reached by
`push_back 7; push_back 8; pop_front` (one block, `phead = 1`, `ptail = 2`),
`pop_back` releases the sole block and resets the counters to zero, while
`dequeue_back` (whose reset test only fires when the decremented `ptail` is
block-aligned) keeps the block allocated with `phead = ptail = 1`, leaving
`empty()` false on a size-0 deque.  Both do return the same element. -/
theorem C3_dequeue_back_code_bug :
    c3State.dequeue_back.1 = c3State.back ∧
      c3State.dequeue_back.2 ≠ c3State.pop_back ∧
      c3State.pop_back.blocks.length = 0 ∧
      c3State.dequeue_back.2.blocks.length = 1 ∧
      c3State.pop_back.phead = 0 ∧ c3State.pop_back.ptail = 0 ∧
      c3State.dequeue_back.2.phead = 1 ∧ c3State.dequeue_back.2.ptail = 1 ∧
      c3State.dequeue_back.2.size = 0 ∧
      c3State.dequeue_back.2.emptyD = false ∧
      c3State.pop_back.emptyD = true := by
  refine ⟨by decide, by decide, by decide, by decide, by decide, by decide,
    by decide, by decide, by decide, by decide, by decide⟩

/-! ## C4: no two free chunks are physically adjacent -/

/-- C4.  In every large-heap state reachable by any sequence of
`LargeHeap::alloc` and `LargeHeap::dealloc` calls (dealloc only on recorded
chunk starts — otherwise the source aborts, modelled by `none` steps that
`LHReach` excludes), no two free chunks are physically adjacent: for any two
free chunks `[a, a+s)` and `[a', a'+s')` recorded in `freeChunkSets`,
`a + s ≠ a'`.  Instantiating the statement both ways round gives both halves
of the claim: `a+s` is not the start of another free chunk, and `a` is not
the end of one. -/
theorem C4_no_adjacent_free (st : LHState) (hst : LHReach st)
    (s : Nat) (bkt : List Nat) (a : Nat) (s' : Nat) (bkt' : List Nat) (a' : Nat)
    (hm : (s, bkt) ∈ st.freeChunkSets) (ha : a ∈ bkt)
    (hm' : (s', bkt') ∈ st.freeChunkSets) (ha' : a' ∈ bkt') :
    a + s ≠ a' := by
  obtain ⟨hSep, hPos, hBel, hBase, hFs, hFb, hFi, hNa⟩ := lhreach_inv hst
  exact hNa a s a' ⟨(s, bkt), hm, ha⟩ ⟨(s', bkt'), hm', ha'⟩ (hFi (s, bkt) hm a ha)

/-- C4, witness: after `alloc(64)` from the pristine heap, the residual free
chunk `[trackedBase+64, trackedBase+2^20)` is not adjacent to itself. -/
theorem C4_no_adjacent_free_witness :
    (1048512, [trackedBase + 64]) ∈ c4State.freeChunkSets ∧
      trackedBase + 64 ∈ [trackedBase + 64] ∧
      trackedBase + 64 + 1048512 ≠ trackedBase + 64 :=
  ⟨by decide, by decide,
    C4_no_adjacent_free c4State
      (LHReach.alloc lhInit c4State 64 0 c4Ptr LHReach.init (by decide) (by decide))
      1048512 [trackedBase + 64] (trackedBase + 64)
      1048512 [trackedBase + 64] (trackedBase + 64)
      (by decide) (by decide) (by decide) (by decide)⟩

/-! ## C9: chunk_size on an untracked class-0 pointer -/

/-- C9.  For a pointer whose page has sizemap class 0 and which is not a key
of the large heap's `chunkSizes` map, `chunk_size` returns 0.  The source
path is `chunkToSize_noassert`, a `const` method that only performs a map
`find` under the lock — it cannot abort (contrast `unlocked_dealloc`, whose
missing-key path is the fatal `std::abort`, modelled as `none`), and it
leaves `chunkSizes` and `freeChunkSets` untouched, which the embedding
reflects by `chunk_size` being a pure function of the state. -/
theorem C9_chunk_size_missing_zero (smap : Nat → Nat) (lh : LHState) (p : Nat)
    (hcl : smap (pageOf p) = 0) (hmf : mfind lh.chunkSizes p = none) :
    chunk_size smap lh p = 0 := by
  unfold chunk_size chunkToSize_noassert
  rw [hcl, hmf]
  simp

/-- C9, witness: the pristine heap and an all-zero sizemap at the base
address. -/
theorem C9_chunk_size_missing_zero_witness :
    chunk_size (fun _ => 0) lhInit trackedBase = 0 :=
  C9_chunk_size_missing_zero (fun _ => 0) lhInit trackedBase rfl rfl

/-! ## Small-path development: region state, central free lists, thread
cache (towards C7, C8, C10) -/

theorem bootElems_bounds (cl : Nat) :
    2 ≤ bootElemsPerFetch cl ∧ bootElemsPerFetch cl ≤ 32 := by
  unfold bootElemsPerFetch
  generalize kFetchTargetSize / classToSize cl = q
  omega

theorem classToSize_bounds {cl : Nat} (h1 : 1 ≤ cl) (h2 : cl ≤ 255) :
    64 ≤ classToSize cl ∧ classToSize cl ≤ 16320 := by
  unfold classToSize
  omega

theorem isLargeAlloc_classToSize {cl : Nat} (h1 : 1 ≤ cl) (h2 : cl ≤ 255) :
    isLargeAlloc (classToSize cl) = false := by
  simp only [isLargeAlloc, decide_eq_false_iff_not, kMaxClasses, sizeToClass,
    classToSize]
  omega

theorem sizeToClass_classToSize {cl : Nat} (h1 : 1 ≤ cl) :
    sizeToClass (classToSize cl) = cl := by
  simp only [sizeToClass, classToSize]
  omega

theorem sizeToClass_pos {n : Nat} (h : 1 ≤ n) : 1 ≤ sizeToClass n := by
  simp only [sizeToClass]
  omega

theorem sizeToClass_le_of_small {n : Nat} (h : isLargeAlloc n = false) :
    sizeToClass n ≤ 255 := by
  simp only [isLargeAlloc, decide_eq_false_iff_not, kMaxClasses] at h
  omega

theorem isLargeAlloc_iff (n : Nat) : isLargeAlloc n = false ↔ n ≤ 16320 := by
  simp only [isLargeAlloc, decide_eq_false_iff_not, kMaxClasses, sizeToClass]
  omega

/-- What one `sysAlloc` call guarantees: it hands out the span starting at
the old bump, advances the bump by whole pages, keeps the sizemap stable on
the previously reserved range, and (for small chunk sizes) stamps every
page of the new span with the chunk's class. -/
theorem sysAllocM_spec (rs : RegionState) (cs : Nat) (hreg : RegOK rs) :
    (sysAllocM rs cs).1.1 = rs.trackedBump ∧
    (sysAllocM rs cs).2.trackedBump
      = rs.trackedBump + max 32 (sizeToPages cs) * kPageSize ∧
    (sysAllocM rs cs).1.2 = (sysAllocM rs cs).2.trackedBump ∧
    RegOK (sysAllocM rs cs).2 ∧ RegLe rs (sysAllocM rs cs).2 ∧
    (isLargeAlloc cs = false → ∀ x, rs.trackedBump ≤ x →
      x < (sysAllocM rs cs).2.trackedBump →
      (sysAllocM rs cs).2.sizemap (pageOf x) = sizeToClass cs) := by
  obtain ⟨hr1, hr2⟩ := hreg
  have hps : kPageSize = 32768 := rfl
  rw [hps] at hr2
  refine ⟨rfl, rfl, rfl, ⟨?_, ?_⟩, ⟨?_, ?_⟩, ?_⟩
  · show trackedBase ≤ rs.trackedBump + max 32 (sizeToPages cs) * kPageSize
    omega
  · show kPageSize ∣ (rs.trackedBump + max 32 (sizeToPages cs) * kPageSize
      - trackedBase)
    rw [hps]
    omega
  · show rs.trackedBump ≤ rs.trackedBump + max 32 (sizeToPages cs) * kPageSize
    omega
  · intro a h1 h2
    simp only [sysAllocM]
    by_cases hL : isLargeAlloc cs = true
    · rw [if_pos hL]
    · rw [if_neg hL]
      simp only [pageOf, hps]
      rw [if_neg (by omega)]
  · intro hL x hx1 hx2
    have hx2' : x < rs.trackedBump + max 32 (sizeToPages cs) * 32768 := by
      have hx := hx2
      rw [show (sysAllocM rs cs).2.trackedBump
        = rs.trackedBump + max 32 (sizeToPages cs) * kPageSize from rfl, hps] at hx
      exact hx
    simp only [sysAllocM]
    rw [if_neg (by rw [hL]; exact Bool.false_ne_true)]
    simp only [pageOf, hps]
    rw [if_pos (by omega)]

theorem RegLe_refl (rs : RegionState) : RegLe rs rs :=
  ⟨le_refl _, fun _ _ _ => rfl⟩

theorem PtrOKr_mono {rs rs' : RegionState} (h : RegLe rs rs') {cl a : Nat}
    (hp : PtrOKr rs cl a) : PtrOKr rs' cl a := by
  obtain ⟨h1, h2⟩ := h
  obtain ⟨p1, p2, p3⟩ := hp
  exact ⟨(h2 a p2 p3).trans p1, p2, by omega⟩

theorem CFLOK_mono {rs rs' : RegionState} (h : RegLe rs rs') {cl : Nat} {cf : CFL}
    (hok : CFLOK rs cl cf) : CFLOK rs' cl cf := by
  obtain ⟨h1, h2, h3, h4, h5, h6⟩ := hok
  refine ⟨h1, h2, BDeque.DAll_imp (fun a => PtrOKr_mono h) h3, h4, h5, ?_⟩
  intro x hx1 hx2
  exact PtrOKr_mono h (h6 x hx1 hx2)

/-- The bump-window fill of `bulkAlloc`: with a window that can fit at
least one chunk and whose addresses are all `PtrOKr`, the fanout loop
produces a well-formed, aligned, non-empty deque of `PtrOKr` chunks. -/
theorem fill_spec (rs1 : RegionState) (cl : Nat) (start wend cs epf fc : Nat)
    (hcs : 64 ≤ cs) (hepf : 2 ≤ epf)
    (hwge : start + cs ≤ wend)
    (hfc : fc = if cs * epf < wend - start then epf else (wend - start) / cs)
    (hwin : ∀ x, start ≤ x → x < wend → PtrOKr rs1 cl x) :
    BDeque.WF (pushRange BDeque.initD start cs fc) ∧
    (pushRange BDeque.initD start cs fc).phead % 32 = 0 ∧
    BDeque.DAll (PtrOKr rs1 cl) (pushRange BDeque.initD start cs fc) ∧
    1 ≤ (pushRange BDeque.initD start cs fc).size := by
  have hbound : ∀ j, j < fc → start + j * cs + cs ≤ wend := by
    intro j hj
    by_cases hb : cs * epf < wend - start
    · rw [hfc, if_pos hb] at hj
      have hmul : (j + 1) * cs ≤ epf * cs := Nat.mul_le_mul_right cs (by omega)
      have hcomm : epf * cs = cs * epf := Nat.mul_comm epf cs
      have hsm : (j + 1) * cs = j * cs + cs := by rw [Nat.succ_mul]
      omega
    · rw [hfc, if_neg hb] at hj
      have hmul : (j + 1) * cs ≤ ((wend - start) / cs) * cs :=
        Nat.mul_le_mul_right cs (by omega)
      have hdm : ((wend - start) / cs) * cs ≤ wend - start := Nat.div_mul_le_self _ _
      have hsm : (j + 1) * cs = j * cs + cs := by rw [Nat.succ_mul]
      omega
  have hfc1 : 1 ≤ fc := by
    by_cases hb : cs * epf < wend - start
    · rw [hfc, if_pos hb]
      omega
    · rw [hfc, if_neg hb]
      rw [Nat.one_le_div_iff (by omega)]
      omega
  have hP : ∀ j, j < fc → PtrOKr rs1 cl (start + j * cs) := by
    intro j hj
    refine hwin _ (Nat.le_add_right _ _) ?_
    have hbj := hbound j hj
    omega
  obtain ⟨p1, p2, p3, p4⟩ := pushRange_full fc BDeque.initD start cs
    BDeque.WF_initD BDeque.DAll_initD hP
  refine ⟨p1, ?_, p3, ?_⟩
  · rw [p4]
    decide
  · rw [p2]
    have h0 : (BDeque.initD : BDeque Nat).size = 0 := rfl
    omega

/-- Full specification of `bulkAlloc` into an empty destination: the
central list and the region keep their invariants, the region only grows,
and the destination comes back well-formed, aligned, non-empty, and filled
with class-`cl` chunks. -/
theorem bulkAlloc_spec (cf : CFL) (rs : RegionState) (cl : Nat)
    (h1 : 1 ≤ cl) (h2 : cl ≤ 255) (hok : CFLOK rs cl cf) (hreg : RegOK rs) :
    CFLOK (cf.bulkAlloc BDeque.initD rs).2.2 cl (cf.bulkAlloc BDeque.initD rs).1 ∧
    RegOK (cf.bulkAlloc BDeque.initD rs).2.2 ∧
    RegLe rs (cf.bulkAlloc BDeque.initD rs).2.2 ∧
    BDeque.WF (cf.bulkAlloc BDeque.initD rs).2.1 ∧
    (cf.bulkAlloc BDeque.initD rs).2.1.phead % 32 = 0 ∧
    BDeque.DAll (PtrOKr (cf.bulkAlloc BDeque.initD rs).2.2 cl)
      (cf.bulkAlloc BDeque.initD rs).2.1 ∧
    1 ≤ (cf.bulkAlloc BDeque.initD rs).2.1.size := by
  obtain ⟨hw, hal, hda, hcs, hepf, hwin⟩ := hok
  obtain ⟨hb2, hb32⟩ := bootElems_bounds cl
  have hepf2 : 2 ≤ cf.elemsPerFetch := by omega
  have hepf32 : cf.elemsPerFetch ≤ 32 := by omega
  obtain ⟨hcs64, hcs16320⟩ := classToSize_bounds h1 h2
  have hcfs64 : 64 ≤ cf.chunkSize := by omega
  have hcfs16320 : cf.chunkSize ≤ 16320 := by omega
  by_cases hrec : cf.elemsPerFetch ≤ cf.freeChunks.size
  · by_cases hbig : 32 ≤ cf.elemsPerFetch
    · -- whole-block steal
      have hs32 : 32 ≤ cf.freeChunks.size := by omega
      have hne : cf.freeChunks.blocks ≠ [] := by
        intro hc
        obtain ⟨hp, ht⟩ := hw.nil_reset hc
        simp only [BDeque.size, hp, ht] at hs32
        omega
      have hr : cf.bulkAlloc BDeque.initD rs
          = ({ cf with freeChunks := cf.freeChunks.steal_front.2 },
             cf.freeChunks.steal_front.1, rs) := by
        simp only [CFL.bulkAlloc, if_pos hrec, if_pos hbig]
      rw [hr]
      refine ⟨⟨?_, ?_, ?_, hcs, hepf, hwin⟩, hreg, RegLe_refl rs, ?_, ?_, ?_, ?_⟩
      · exact BDeque.WF_steal_snd cf.freeChunks hw hal hs32
      · exact BDeque.phead_steal_snd cf.freeChunks hal
      · exact BDeque.DAll_steal_snd hw hal hs32 hda
      · exact BDeque.WF_steal_fst cf.freeChunks hw hne
      · show ((0 : Int)) % 32 = 0
        decide
      · exact BDeque.DAll_steal_fst hw hal hs32 hda
      · rw [BDeque.size_steal_fst]
        omega
    · -- piecewise move into the (empty) destination
      obtain ⟨m1, m2, m3, m4⟩ := moveBack_spec cf.elemsPerFetch BDeque.initD
        cf.freeChunks BDeque.WF_initD hw hrec
      obtain ⟨q1, q2, q3, q4⟩ := moveBack_full (P := PtrOKr rs cl) cf.elemsPerFetch
        BDeque.initD cf.freeChunks BDeque.WF_initD hw hrec BDeque.DAll_initD hda
      have hr : cf.bulkAlloc BDeque.initD rs
          = ({ cf with freeChunks :=
                (moveBack BDeque.initD cf.freeChunks cf.elemsPerFetch).2 },
             (moveBack BDeque.initD cf.freeChunks cf.elemsPerFetch).1, rs) := by
        simp only [CFL.bulkAlloc, if_pos hrec, if_neg hbig]
      rw [hr]
      refine ⟨⟨m2, q4 hal, q2, hcs, hepf, hwin⟩, hreg, RegLe_refl rs, m1, ?_, q1, ?_⟩
      · rw [q3]
        decide
      · rw [m3]
        have h0 : (BDeque.initD : BDeque Nat).size = 0 := rfl
        omega
  · by_cases hbe : cf.bumpEnd < cf.bumpStart + cf.chunkSize
    · -- window exhausted: sysAlloc then fill
      obtain ⟨s1, s2, s3, s4, s5, s6⟩ := sysAllocM_spec rs cf.chunkSize hreg
      have hLarge : isLargeAlloc cf.chunkSize = false := by
        rw [hcs]
        exact isLargeAlloc_classToSize h1 h2
      have hstc : sizeToClass cf.chunkSize = cl := by
        rw [hcs]
        exact sizeToClass_classToSize h1
      have hwbig : (sysAllocM rs cf.chunkSize).1.1 + 32 * 32768
          ≤ (sysAllocM rs cf.chunkSize).1.2 := by
        rw [s1, s3, s2]
        have hps : kPageSize = 32768 := rfl
        rw [hps]
        have hm : 32 ≤ max 32 (sizeToPages cf.chunkSize) := Nat.le_max_left _ _
        omega
      have hwinNew : ∀ x, (sysAllocM rs cf.chunkSize).1.1 ≤ x →
          x < (sysAllocM rs cf.chunkSize).1.2 →
          PtrOKr (sysAllocM rs cf.chunkSize).2 cl x := by
        intro x hx1 hx2
        rw [s1] at hx1
        rw [s3] at hx2
        refine ⟨(s6 hLarge x hx1 hx2).trans hstc, ?_, hx2⟩
        have htb := hreg.1
        omega
      have hr : cf.bulkAlloc BDeque.initD rs
          = ({ cf with
                bumpStart := (sysAllocM rs cf.chunkSize).1.1
                  + cf.chunkSize * cf.elemsPerFetch,
                bumpEnd := (sysAllocM rs cf.chunkSize).1.2 },
             pushRange BDeque.initD (sysAllocM rs cf.chunkSize).1.1 cf.chunkSize
               (if cf.chunkSize * cf.elemsPerFetch
                   < (sysAllocM rs cf.chunkSize).1.2
                     - (sysAllocM rs cf.chunkSize).1.1
                then cf.elemsPerFetch
                else ((sysAllocM rs cf.chunkSize).1.2
                  - (sysAllocM rs cf.chunkSize).1.1) / cf.chunkSize),
             (sysAllocM rs cf.chunkSize).2) := by
        simp only [CFL.bulkAlloc, if_neg hrec, if_pos hbe]
      rw [hr]
      obtain ⟨f1, f2, f3, f4⟩ := fill_spec (sysAllocM rs cf.chunkSize).2 cl
        (sysAllocM rs cf.chunkSize).1.1 (sysAllocM rs cf.chunkSize).1.2
        cf.chunkSize cf.elemsPerFetch _ hcfs64 hepf2 (by omega) rfl hwinNew
      refine ⟨⟨hw, hal, ?_, hcs, hepf, ?_⟩, s4, s5, f1, f2, f3, f4⟩
      · exact BDeque.DAll_imp (fun a => PtrOKr_mono s5) hda
      · intro x hx1 hx2
        dsimp only at hx1 hx2
        refine hwinNew x (by omega) hx2
    · -- fill straight from the remaining window
      have hwge : cf.bumpStart + cf.chunkSize ≤ cf.bumpEnd := by omega
      have hr : cf.bulkAlloc BDeque.initD rs
          = ({ cf with
                bumpStart := cf.bumpStart + cf.chunkSize * cf.elemsPerFetch },
             pushRange BDeque.initD cf.bumpStart cf.chunkSize
               (if cf.chunkSize * cf.elemsPerFetch < cf.bumpEnd - cf.bumpStart
                then cf.elemsPerFetch
                else (cf.bumpEnd - cf.bumpStart) / cf.chunkSize),
             rs) := by
        simp only [CFL.bulkAlloc, if_neg hrec, if_neg hbe]
      rw [hr]
      obtain ⟨f1, f2, f3, f4⟩ := fill_spec rs cl cf.bumpStart cf.bumpEnd
        cf.chunkSize cf.elemsPerFetch _ hcfs64 hepf2 hwge rfl hwin
      refine ⟨⟨hw, hal, hda, hcs, hepf, ?_⟩, hreg, RegLe_refl rs, f1, f2, f3, f4⟩
      intro x hx1 hx2
      dsimp only at hx1 hx2
      refine hwin x (by omega) hx2

/-- Full specification of `bulkDealloc` on an aligned well-formed source
holding class-`cl` chunks.  `hstrict` is the at-least-one-extra-block
precondition of `splice_front` (the donation call always satisfies it,
since it donates only about half the source). -/
theorem bulkDealloc_spec (cf : CFL) (src : BDeque Nat) (e : Nat) (rs : RegionState)
    (cl : Nat) (hok : CFLOK rs cl cf) (hsw : BDeque.WF src)
    (hsa : src.phead % 32 = 0) (hsd : BDeque.DAll (PtrOKr rs cl) src)
    (he : e ≤ src.size) (hstrict : 32 ≤ e → 32 * (e / 32) < src.size) :
    CFLOK rs cl (cf.bulkDealloc src e).1 ∧
    BDeque.WF (cf.bulkDealloc src e).2 ∧
    (cf.bulkDealloc src e).2.phead % 32 = 0 ∧
    BDeque.DAll (PtrOKr rs cl) (cf.bulkDealloc src e).2 ∧
    (cf.bulkDealloc src e).2.size + (if 32 ≤ e then 32 * (e / 32) else e)
      = src.size ∧
    (cf.bulkDealloc src e).1.freeChunks.size
      = cf.freeChunks.size + (if 32 ≤ e then 32 * (e / 32) else e) ∧
    (cf.bulkDealloc src e).1.chunkSize = cf.chunkSize ∧
    (cf.bulkDealloc src e).1.elemsPerFetch = cf.elemsPerFetch ∧
    (cf.bulkDealloc src e).1.bumpStart = cf.bumpStart ∧
    (cf.bulkDealloc src e).1.bumpEnd = cf.bumpEnd := by
  obtain ⟨hw, hal, hda, hcs, hepf, hwin⟩ := hok
  by_cases h32 : 32 ≤ e
  · have hb1 : 1 ≤ e / 32 := by omega
    have hblt : 32 * (e / 32) < src.size := hstrict h32
    have hlen : e / 32 + 1 ≤ src.blocks.length := by
      have hcnt := hsw.count'
      have ho := BDeque.off_eq_zero hsa
      rw [ho] at hcnt
      omega
    have hr : cf.bulkDealloc src e
        = ({ cf with freeChunks :=
              cf.freeChunks.merge_front (src.splice_front (e / 32)).1 },
           (src.splice_front (e / 32)).2) := by
      simp only [CFL.bulkDealloc, if_pos h32]
    rw [hr]
    have hsplit1 := BDeque.WF_splice_fst src (e / 32) hsw hsa hb1 hlen
    have hsplit2 := BDeque.WF_splice_snd src (e / 32) hsw hsa hlen
    have hptails : (src.splice_front (e / 32)).1.ptail % 32 = 0 := by
      have he1 : (src.splice_front (e / 32)).1.ptail = 32 * ((e / 32 : Nat) : Int) :=
        rfl
      rw [he1]
      omega
    have hpheads : (src.splice_front (e / 32)).1.phead = 0 := rfl
    have hIntb : 32 * ((e / 32 : Nat) : Int) ≤ src.ptail - src.phead := by
      have hse := BDeque.size_eq src hsw.le
      omega
    have hNatb : 32 * (e / 32) ≤ src.size := by omega
    refine ⟨⟨?_, ?_, ?_, hcs, hepf, hwin⟩, hsplit2, ?_, ?_, ?_, ?_, rfl, rfl, rfl,
      rfl⟩
    · exact BDeque.WF_merge_front cf.freeChunks _ hw hsplit1 hal hptails
    · exact BDeque.phead_merge_front cf.freeChunks _ hal
        (by rw [hpheads]; decide) hptails
    · exact BDeque.DAll_merge hw hsplit1 hal hptails hda
        (BDeque.DAll_splice_fst hsw hsa hNatb hsd)
    · have he2 : (src.splice_front (e / 32)).2.phead
          = src.phead + 32 * ((e / 32 : Nat) : Int) := rfl
      rw [he2]
      omega
    · exact BDeque.DAll_splice_snd hsw hsa hIntb hsd
    · rw [if_pos h32, BDeque.size_splice_snd src (e / 32) hIntb]
      omega
    · rw [if_pos h32, BDeque.size_merge_front cf.freeChunks _ hw hsplit1,
        BDeque.size_splice_fst]
  · have hr : cf.bulkDealloc src e
        = ({ cf with freeChunks := (moveBack cf.freeChunks src e).1 },
           (moveBack cf.freeChunks src e).2) := by
      simp only [CFL.bulkDealloc, if_neg h32]
    rw [hr]
    obtain ⟨m1, m2, m3, m4⟩ := moveBack_spec e cf.freeChunks src hw hsw he
    obtain ⟨q1, q2, q3, q4⟩ := moveBack_full (P := PtrOKr rs cl) e cf.freeChunks src
      hw hsw he hda hsd
    refine ⟨⟨m1, ?_, q1, hcs, hepf, hwin⟩, m2, q4 hsa, q2, ?_, ?_, rfl, rfl, rfl,
      rfl⟩
    · rw [q3]
      exact hal
    · rw [if_neg h32, m4]
      omega
    · rw [if_neg h32]
      exact m3

/-- Updating one class deque changes the byte sum by exactly that class's
contribution. -/
theorem sum_update_eq (f : Nat → BDeque Nat) (cl : Nat) (hcl : cl < kMaxClasses)
    (v : BDeque Nat) :
    (∑ c ∈ Finset.range kMaxClasses,
        (Function.update f cl v c).size * classToSize c)
        + (f cl).size * classToSize cl
      = (∑ c ∈ Finset.range kMaxClasses, (f c).size * classToSize c)
        + v.size * classToSize cl := by
  have hmem : cl ∈ Finset.range kMaxClasses := Finset.mem_range.mpr hcl
  have hfun : ∀ c, (Function.update f cl v c).size * classToSize c
      = Function.update (fun c => (f c).size * classToSize c) cl
        (v.size * classToSize cl) c := by
    intro c
    by_cases hc : c = cl
    · subst hc
      rw [Function.update_same, Function.update_same]
    · rw [Function.update_noteq hc, Function.update_noteq hc]
  rw [Finset.sum_congr rfl (fun c _ => hfun c), Finset.sum_update_of_mem hmem,
    Finset.sum_eq_sum_diff_singleton_add hmem
      (fun c => (f c).size * classToSize c)]
  omega

theorem term_le_sum (f : Nat → BDeque Nat) (cl : Nat) (hcl : cl < kMaxClasses) :
    (f cl).size * classToSize cl
      ≤ ∑ c ∈ Finset.range kMaxClasses, (f c).size * classToSize c :=
  @Finset.single_le_sum Nat Nat _ (fun c => (f c).size * classToSize c)
    (Finset.range kMaxClasses) (fun c _ => Nat.zero_le _) cl
    (Finset.mem_range.mpr hcl)

/-- One donation-loop iteration preserves the global invariant. -/
theorem donateClass_inv (g : GState) (cl : Nat) (hinv : GInv g)
    (h1 : 1 ≤ cl) (h2 : cl ≤ 255) : GInv (donateClass g cl) := by
  obtain ⟨hreg, hsum, hcls⟩ := hinv
  have hk : kMaxClasses = 256 := rfl
  simp only [donateClass]
  by_cases hz : (g.tc.classLists cl).size = 0
  · rw [if_pos hz]
    exact ⟨hreg, hsum, hcls⟩
  · rw [if_neg hz]
    obtain ⟨tw, ta, td, tcf⟩ := hcls cl h1 h2
    have hs1 : 1 ≤ (g.tc.classLists cl).size := by omega
    have hele : ((g.tc.classLists cl).size + 1) / 2 ≤ (g.tc.classLists cl).size := by
      omega
    have hstrict : 32 ≤ ((g.tc.classLists cl).size + 1) / 2 →
        32 * ((((g.tc.classLists cl).size + 1) / 2) / 32)
          < (g.tc.classLists cl).size := by
      omega
    obtain ⟨c1, c2, c3, c4, c5, c6, c7, c8, c9, c10⟩ :=
      bulkDealloc_spec (g.central cl) (g.tc.classLists cl)
        (((g.tc.classLists cl).size + 1) / 2) g.rs cl tcf tw ta td hele hstrict
    refine ⟨hreg, ?_, ?_⟩
    · dsimp only
      have hupd := sum_update_eq g.tc.classLists cl (by omega)
        ((g.central cl).bulkDealloc (g.tc.classLists cl)
          (((g.tc.classLists cl).size + 1) / 2)).2
      have hterm := term_le_sum g.tc.classLists cl (by omega)
      have hr2le : ((g.central cl).bulkDealloc (g.tc.classLists cl)
          (((g.tc.classLists cl).size + 1) / 2)).2.size
            ≤ (g.tc.classLists cl).size := by
        omega
      have hmul : ((g.tc.classLists cl).size
            - ((g.central cl).bulkDealloc (g.tc.classLists cl)
                (((g.tc.classLists cl).size + 1) / 2)).2.size) * classToSize cl
          = (g.tc.classLists cl).size * classToSize cl
            - ((g.central cl).bulkDealloc (g.tc.classLists cl)
                (((g.tc.classLists cl).size + 1) / 2)).2.size * classToSize cl :=
        Nat.sub_mul _ _ _
      have hmle : ((g.central cl).bulkDealloc (g.tc.classLists cl)
            (((g.tc.classLists cl).size + 1) / 2)).2.size * classToSize cl
          ≤ (g.tc.classLists cl).size * classToSize cl :=
        Nat.mul_le_mul_right _ hr2le
      omega
    · intro c hc1 hc2
      by_cases hcc : c = cl
      · subst hcc
        refine ⟨?_, ?_, ?_, ?_⟩ <;> simp only [Function.update_same]
        · exact c2
        · exact c3
        · exact c4
        · exact c1
      · obtain ⟨d1, d2, d3, d4⟩ := hcls c hc1 hc2
        refine ⟨?_, ?_, ?_, ?_⟩ <;> simp only [Function.update_noteq hcc]
        · exact d1
        · exact d2
        · exact d3
        · exact d4

theorem foldl_donate_inv : ∀ (l : List Nat) (g : GState),
    (∀ c ∈ l, 1 ≤ c ∧ c ≤ 255) → GInv g → GInv (l.foldl donateClass g)
  | [], _, _, hg => hg
  | c :: l, g, hl, hg => by
    have hc := hl c (List.mem_cons_self c l)
    exact foldl_donate_inv l (donateClass g c)
      (fun x hx => hl x (List.mem_cons_of_mem c hx))
      (donateClass_inv g c hg hc.1 hc.2)

/-- `ThreadCache::dealloc` (push + possible donation pass) preserves the
global invariant, given `do_dealloc`'s contract on the freed pointer. -/
theorem tcDealloc_inv (g : GState) (p cl : Nat) (hinv : GInv g)
    (hmap : g.rs.sizemap (pageOf p) = cl) (h1 : 1 ≤ cl) (h2 : cl ≤ 255)
    (htb : trackedBase ≤ p) (hlt : p < g.rs.trackedBump) :
    GInv (tcDealloc g p cl) := by
  obtain ⟨hreg, hsum, hcls⟩ := hinv
  obtain ⟨tw, ta, td, tcf⟩ := hcls cl h1 h2
  have hk : kMaxClasses = 256 := rfl
  have hpok : PtrOKr g.rs cl p := ⟨hmap, htb, hlt⟩
  have hg1 : GInv { g with tc :=
      { cacheSize := g.tc.cacheSize + classToSize cl,
        classLists := Function.update g.tc.classLists cl
          ((g.tc.classLists cl).push_back p) } } := by
    refine ⟨hreg, ?_, ?_⟩
    · dsimp only
      have hupd := sum_update_eq g.tc.classLists cl (by omega)
        ((g.tc.classLists cl).push_back p)
      have hsz := BDeque.size_push_back (g.tc.classLists cl) p tw.le
      rw [hsz] at hupd
      have hsm : ((g.tc.classLists cl).size + 1) * classToSize cl
          = (g.tc.classLists cl).size * classToSize cl + classToSize cl := by
        rw [Nat.succ_mul]
      omega
    · intro c hc1 hc2
      by_cases hcc : c = cl
      · subst hcc
        refine ⟨?_, ?_, ?_, ?_⟩ <;> simp only [Function.update_same]
        · exact BDeque.WF_push_back _ p tw
        · rw [BDeque.phead_push_back]
          exact ta
        · exact BDeque.DAll_push_back tw td hpok
        · exact tcf
      · obtain ⟨d1, d2, d3, d4⟩ := hcls c hc1 hc2
        refine ⟨?_, ?_, ?_, ?_⟩ <;> simp only [Function.update_noteq hcc]
        · exact d1
        · exact d2
        · exact d3
        · exact d4
  simp only [tcDealloc]
  split
  · refine foldl_donate_inv _ _ ?_ hg1
    intro c hc
    rw [hk] at hc
    rw [List.mem_range'_1] at hc
    omega
  · exact hg1

/-- The refill step of `ThreadCache::alloc` preserves the invariant and
leaves the class deque non-empty. -/
theorem tcRefill_spec (g : GState) (cl : Nat) (hinv : GInv g)
    (h1 : 1 ≤ cl) (h2 : cl ≤ 255) :
    GInv (tcRefill g cl) ∧ 1 ≤ ((tcRefill g cl).tc.classLists cl).size := by
  obtain ⟨hreg, hsum, hcls⟩ := hinv
  obtain ⟨tw, ta, td, tcf⟩ := hcls cl h1 h2
  have hk : kMaxClasses = 256 := rfl
  by_cases hemp : (g.tc.classLists cl).emptyD = true
  · have hnil : (g.tc.classLists cl).blocks = [] := by
      simpa [BDeque.emptyD, List.isEmpty_iff] using hemp
    have hinitd : g.tc.classLists cl = BDeque.initD := BDeque.empty_eq_initD tw hnil
    obtain ⟨b1, b2, b3, b4, b5, b6, b7⟩ :=
      bulkAlloc_spec (g.central cl) g.rs cl h1 h2 tcf hreg
    simp only [tcRefill, if_pos hemp]
    rw [hinitd]
    constructor
    · refine ⟨b2, ?_, ?_⟩
      · dsimp only
        have hupd := sum_update_eq g.tc.classLists cl (by omega)
          ((g.central cl).bulkAlloc BDeque.initD g.rs).2.1
        have h0 : (g.tc.classLists cl).size = 0 := by
          rw [hinitd]
          rfl
        rw [h0] at hupd
        have hcomm : classToSize cl
              * ((g.central cl).bulkAlloc BDeque.initD g.rs).2.1.size
            = ((g.central cl).bulkAlloc BDeque.initD g.rs).2.1.size
              * classToSize cl :=
          Nat.mul_comm _ _
        omega
      · intro c hc1 hc2
        by_cases hcc : c = cl
        · subst hcc
          refine ⟨?_, ?_, ?_, ?_⟩ <;> simp only [Function.update_same]
          · exact b4
          · exact b5
          · exact b6
          · exact b1
        · obtain ⟨d1, d2, d3, d4⟩ := hcls c hc1 hc2
          refine ⟨?_, ?_, ?_, ?_⟩ <;> simp only [Function.update_noteq hcc]
          · exact d1
          · exact d2
          · exact BDeque.DAll_imp (fun a => PtrOKr_mono b3) d3
          · exact CFLOK_mono b3 d4
    · simp only [Function.update_same]
      exact b7
  · have hne : (g.tc.classLists cl).blocks ≠ [] := by
      intro hc
      apply hemp
      simp [BDeque.emptyD, hc]
    have hsz := tw.size_pos_of_ne_nil ta hne
    simp only [tcRefill, if_neg hemp]
    exact ⟨⟨hreg, hsum, hcls⟩, hsz⟩

/-- The dequeue step of `ThreadCache::alloc`: preserves the invariant and
the popped chunk is a reserved, correctly stamped class-`cl` chunk. -/
theorem tcAlloc_dequeue (g : GState) (cl : Nat) (hinv : GInv g)
    (h1 : 1 ≤ cl) (h2 : cl ≤ 255) (hs : 1 ≤ (g.tc.classLists cl).size) :
    GInv { g with tc :=
        { cacheSize := g.tc.cacheSize - classToSize cl,
          classLists := Function.update g.tc.classLists cl
            (g.tc.classLists cl).dequeue_back.2 } } ∧
      PtrOKr g.rs cl (g.tc.classLists cl).dequeue_back.1 := by
  obtain ⟨hreg, hsum, hcls⟩ := hinv
  obtain ⟨tw, ta, td, tcf⟩ := hcls cl h1 h2
  have hk : kMaxClasses = 256 := rfl
  obtain ⟨hv, hd2⟩ := BDeque.DAll_dequeue_back tw hs td
  refine ⟨⟨hreg, ?_, ?_⟩, hv⟩
  · dsimp only
    have hupd := sum_update_eq g.tc.classLists cl (by omega)
      (g.tc.classLists cl).dequeue_back.2
    have hsz := BDeque.size_dequeue_back (g.tc.classLists cl) tw hs
    rw [hsz] at hupd
    have hterm := term_le_sum g.tc.classLists cl (by omega)
    have hsm : ((g.tc.classLists cl).size - 1) * classToSize cl
        = (g.tc.classLists cl).size * classToSize cl - 1 * classToSize cl :=
      Nat.sub_mul _ _ _
    have hone : 1 * classToSize cl = classToSize cl := Nat.one_mul _
    have hwle : 1 * classToSize cl ≤ (g.tc.classLists cl).size * classToSize cl :=
      Nat.mul_le_mul_right _ hs
    omega
  · intro c hc1 hc2
    by_cases hcc : c = cl
    · subst hcc
      refine ⟨?_, ?_, ?_, ?_⟩ <;> simp only [Function.update_same]
      · exact BDeque.WF_dequeue_back _ tw hs
      · exact BDeque.phead_dequeue_back _ ta
      · exact hd2
      · exact tcf
    · obtain ⟨d1, d2, d3, d4⟩ := hcls c hc1 hc2
      refine ⟨?_, ?_, ?_, ?_⟩ <;> simp only [Function.update_noteq hcc]
      · exact d1
      · exact d2
      · exact d3
      · exact d4

/-- `ThreadCache::alloc` preserves the invariant, and the returned chunk is
a reserved class-`cl` chunk with a correctly stamped page. -/
theorem tcAlloc_spec (g : GState) (cl : Nat) (hinv : GInv g)
    (h1 : 1 ≤ cl) (h2 : cl ≤ 255) :
    GInv (tcAlloc g cl).2 ∧ PtrOKr (tcAlloc g cl).2.rs cl (tcAlloc g cl).1 := by
  obtain ⟨hg1, hsz⟩ := tcRefill_spec g cl hinv h1 h2
  obtain ⟨ha, hb⟩ := tcAlloc_dequeue (tcRefill g cl) cl hg1 h1 h2 hsz
  exact ⟨ha, hb⟩

/-- The bootstrap state satisfies the global invariant. -/
theorem ginv_init : GInv initGState := by
  refine ⟨⟨Nat.le_refl _, ?_⟩, ?_, ?_⟩
  · show kPageSize ∣ (trackedBase - trackedBase)
    rw [Nat.sub_self]
    exact dvd_zero kPageSize
  · simp only [initGState]
    simp [BDeque.size, BDeque.initD]
  · intro cl hc1 hc2
    have hk : kMaxClasses = 256 := rfl
    have hcen : initGState.central cl
        = ⟨classToSize cl, bootElemsPerFetch cl, BDeque.initD, 0, 0⟩ := by
      simp only [initGState]
      rw [if_pos ⟨hc1, by omega⟩]
    have htc : initGState.tc.classLists cl = BDeque.initD := rfl
    refine ⟨?_, ?_, ?_, ?_⟩
    · rw [htc]
      exact BDeque.WF_initD
    · rw [htc]
      decide
    · rw [htc]
      exact BDeque.DAll_initD
    · rw [hcen]
      refine ⟨BDeque.WF_initD, by show ((0 : Int)) % 32 = 0; decide,
        BDeque.DAll_initD, rfl, rfl, ?_⟩
      intro x hx1 hx2
      dsimp only at hx2
      exact absurd hx2 (by omega)

/-- Every reachable small-path state satisfies the global invariant. -/
theorem greach_inv {g : GState} (h : GReach g) : GInv g := by
  induction h with
  | init => exact ginv_init
  | allocSmall g0 n hg hn hlarge ih =>
      exact (tcAlloc_spec g0 (sizeToClass n) ih (sizeToClass_pos hn)
        (sizeToClass_le_of_small hlarge)).1
  | deallocSmall g0 p cl hg hmap h1 h2 htb hlt ih =>
      exact tcDealloc_inv g0 p cl ih hmap h1 h2 htb hlt
  | extBulkAlloc g0 cl hg h1 h2 ih =>
      obtain ⟨hreg, hsum, hcls⟩ := ih
      obtain ⟨tw, ta, td, tcf⟩ := hcls cl h1 h2
      obtain ⟨b1, b2, b3, b4, b5, b6, b7⟩ :=
        bulkAlloc_spec (g0.central cl) g0.rs cl h1 h2 tcf hreg
      refine ⟨b2, hsum, ?_⟩
      intro c hc1 hc2
      by_cases hcc : c = cl
      · subst hcc
        obtain ⟨tw', ta', td', _⟩ := hcls c hc1 hc2
        refine ⟨tw', ta', BDeque.DAll_imp (fun a => PtrOKr_mono b3) td', ?_⟩
        simp only [Function.update_same]
        exact b1
      · obtain ⟨d1, d2, d3, d4⟩ := hcls c hc1 hc2
        refine ⟨d1, d2, BDeque.DAll_imp (fun a => PtrOKr_mono b3) d3, ?_⟩
        simp only [Function.update_noteq hcc]
        exact CFLOK_mono b3 d4
  | extMerge g0 cl b d hg h1 h2 hwf hph hpt hb1 hdall ih =>
      obtain ⟨hreg, hsum, hcls⟩ := ih
      refine ⟨hreg, hsum, ?_⟩
      intro c hc1 hc2
      obtain ⟨d1, d2, d3, d4⟩ := hcls c hc1 hc2
      by_cases hcc : c = cl
      · subst hcc
        obtain ⟨w1, w2, w3, w4, w5, w6⟩ := d4
        have hptal : d.ptail % 32 = 0 := by
          rw [hpt]
          omega
        refine ⟨d1, d2, d3, ?_⟩
        simp only [Function.update_same]
        refine ⟨?_, ?_, ?_, w4, w5, w6⟩
        · exact BDeque.WF_merge_front ((g0.central c).freeChunks) d w1 hwf w2 hptal
        · exact BDeque.phead_merge_front ((g0.central c).freeChunks) d w2
            (by rw [hph]; decide) hptal
        · exact BDeque.DAll_merge w1 hwf w2 hptal w3 hdall
      · refine ⟨d1, d2, d3, ?_⟩
        simp only [Function.update_noteq hcc]
        exact d4
  | extPush g0 cl p hg h1 h2 hmap htb hlt ih =>
      obtain ⟨hreg, hsum, hcls⟩ := ih
      refine ⟨hreg, hsum, ?_⟩
      intro c hc1 hc2
      obtain ⟨d1, d2, d3, d4⟩ := hcls c hc1 hc2
      by_cases hcc : c = cl
      · subst hcc
        obtain ⟨w1, w2, w3, w4, w5, w6⟩ := d4
        refine ⟨d1, d2, d3, ?_⟩
        simp only [Function.update_same, CFL.deallocOne]
        refine ⟨?_, ?_, ?_, w4, w5, w6⟩
        · exact BDeque.WF_push_back _ p w1
        · rw [BDeque.phead_push_back]
          exact w2
        · exact BDeque.DAll_push_back w1 w3 ⟨hmap, htb, hlt⟩
      · refine ⟨d1, d2, d3, ?_⟩
        simp only [Function.update_noteq hcc]
        exact d4

/-! ## C10: phead block alignment and the deque-call preconditions -/

/-- C10.  In every state the allocator can reach through its own paths
(each thread-cache class list and each central free list's recycled deque,
starting empty, under `do_alloc`/`do_dealloc` small operations and the
central-list operations of other threads), `phead` is divisible by 32 for
both deques of every class.  Consequently, whenever the donation call's
guard holds (donating `e = ⌈size/2⌉ ≥ 32` elements), the `splice_front`
preconditions are met — the head is block-aligned and at least one block
beyond the `e/32` spliced ones remains — and whenever `bulkAlloc`'s
whole-block guard holds (at least 32 recycled elements), the recycled deque
is block-aligned with at least one (hence full) head block for
`steal_front`; `merge_front` then always receives a block-aligned front.
So the blocked-deque assertions never fire. -/
theorem C10_phead_alignment (g : GState) (hg : GReach g) (cl : Nat)
    (h1 : 1 ≤ cl) (h2 : cl ≤ 255) :
    (32 : Int) ∣ (g.tc.classLists cl).phead ∧
    (32 : Int) ∣ ((g.central cl).freeChunks).phead ∧
    (∀ e, e = ((g.tc.classLists cl).size + 1) / 2 → 32 ≤ e →
      (g.tc.classLists cl).phead % 32 = 0 ∧
      e / 32 + 1 ≤ (g.tc.classLists cl).blocks.length) ∧
    (32 ≤ ((g.central cl).freeChunks).size →
      ((g.central cl).freeChunks).phead % 32 = 0 ∧
      1 ≤ ((g.central cl).freeChunks).blocks.length) := by
  obtain ⟨hreg, hsum, hcls⟩ := greach_inv hg
  obtain ⟨tw, ta, td, cw, ca, cd, _⟩ := hcls cl h1 h2
  refine ⟨Int.dvd_of_emod_eq_zero ta, Int.dvd_of_emod_eq_zero ca, ?_, ?_⟩
  · intro e he h32
    subst he
    refine ⟨ta, ?_⟩
    have hcnt := tw.count'
    have ho := BDeque.off_eq_zero ta
    rw [ho] at hcnt
    omega
  · intro h32
    refine ⟨ca, ?_⟩
    have hne : ((g.central cl).freeChunks).blocks ≠ [] := by
      intro hc
      obtain ⟨hp, ht⟩ := cw.nil_reset hc
      simp only [BDeque.size, hp, ht] at h32
      omega
    exact List.length_pos.mpr hne

/-- C10, witness at the bootstrap state and class 1. -/
theorem C10_phead_alignment_witness :
    ((1 : Nat) ≤ 1 ∧ (1 : Nat) ≤ 255) ∧
    ((32 : Int) ∣ (initGState.tc.classLists 1).phead ∧
     (32 : Int) ∣ ((initGState.central 1).freeChunks).phead ∧
     (∀ e, e = ((initGState.tc.classLists 1).size + 1) / 2 → 32 ≤ e →
       (initGState.tc.classLists 1).phead % 32 = 0 ∧
       e / 32 + 1 ≤ (initGState.tc.classLists 1).blocks.length) ∧
     (32 ≤ ((initGState.central 1).freeChunks).size →
       ((initGState.central 1).freeChunks).phead % 32 = 0 ∧
       1 ≤ ((initGState.central 1).freeChunks).blocks.length)) :=
  ⟨⟨by decide, by decide⟩,
   C10_phead_alignment initGState GReach.init 1 (by decide) (by decide)⟩

/-! ## C8: the thread cache's byte counter -/

/-- C8.  Starting from an empty thread cache, after any sequence of
`ThreadCache::alloc` and `ThreadCache::dealloc` calls (donation passes
included) and any central-list interference by other threads, the running
byte counter equals the summed byte footprint of the 256 class deques:
`cacheSize = Σ_c size(classLists[c]) · classToSize(c)`. -/
theorem C8_cacheSize_sum (g : GState) (hg : GReach g) :
    g.tc.cacheSize = ∑ c ∈ Finset.range kMaxClasses,
      (g.tc.classLists c).size * classToSize c :=
  (greach_inv hg).2.1

/-- C8, witness at the bootstrap state. -/
theorem C8_cacheSize_sum_witness :
    initGState.tc.cacheSize = ∑ c ∈ Finset.range kMaxClasses,
      (initGState.tc.classLists c).size * classToSize c :=
  C8_cacheSize_sum initGState GReach.init

/-! ## C7: do_alloc routing, sizemap stamping and chunk_size -/

/-- C7.  For every reachable allocator state and request size `n`:
if `1 ≤ n ≤ 16320`, `do_alloc(n)` routes to the small path with class
`sizeToClass n = ⌈n/64⌉`, and the returned pointer `p` satisfies
`sizemap[page(p)] = ⌈n/64⌉` and `chunk_size(p) = 64·⌈n/64⌉ ≥ n` (for any
large-heap state, since the non-zero sizemap class short-circuits the
lookup); if `n ≥ 16321`, `do_alloc(n)` routes to the large heap with the
size rounded up to a 64-byte multiple. -/
theorem C7_do_alloc_routing (g : GState) (n : Nat) (hg : GReach g) (hn : 1 ≤ n) :
    (n ≤ 16320 →
      do_alloc_route n = AllocRoute.small (sizeToClass n) ∧
      sizeToClass n = (n + 63) / 64 ∧
      (do_alloc_small g n).2.rs.sizemap (pageOf (do_alloc_small g n).1)
        = sizeToClass n ∧
      (∀ lh : LHState,
        chunk_size (do_alloc_small g n).2.rs.sizemap lh (do_alloc_small g n).1
          = 64 * sizeToClass n) ∧
      n ≤ 64 * sizeToClass n) ∧
    (16321 ≤ n → do_alloc_route n = AllocRoute.large ((n + 63) / 64 * 64)) := by
  constructor
  · intro hsmall
    have hL : isLargeAlloc n = false := (isLargeAlloc_iff n).mpr hsmall
    have hcl1 := sizeToClass_pos hn
    have hcl2 := sizeToClass_le_of_small hL
    obtain ⟨hginv, hpok⟩ := tcAlloc_spec g (sizeToClass n) (greach_inv hg) hcl1 hcl2
    obtain ⟨pm, ptb, plt⟩ := hpok
    refine ⟨?_, rfl, pm, ?_, ?_⟩
    · simp only [do_alloc_route]
      rw [if_pos hL]
    · intro lh
      simp only [do_alloc_small, chunk_size]
      rw [pm]
      rw [if_pos (by omega)]
      simp only [classToSize]
      omega
    · simp only [sizeToClass]
      omega
  · intro hlarge
    have hL : isLargeAlloc n = true := by
      cases hEq : isLargeAlloc n
      · rw [isLargeAlloc_iff] at hEq
        omega
      · rfl
    have hne : ¬(isLargeAlloc n = false) := by
      rw [hL]
      intro hc
      exact Bool.noConfusion hc
    simp only [do_alloc_route]
    rw [if_neg hne]

/-- C7, witness at the bootstrap state with `n = 1`. -/
theorem C7_do_alloc_routing_witness :
    (1 : Nat) ≤ 1 ∧
    (((1 : Nat) ≤ 16320 →
      do_alloc_route 1 = AllocRoute.small (sizeToClass 1) ∧
      sizeToClass 1 = (1 + 63) / 64 ∧
      (do_alloc_small initGState 1).2.rs.sizemap
          (pageOf (do_alloc_small initGState 1).1) = sizeToClass 1 ∧
      (∀ lh : LHState,
        chunk_size (do_alloc_small initGState 1).2.rs.sizemap lh
            (do_alloc_small initGState 1).1 = 64 * sizeToClass 1) ∧
      1 ≤ 64 * sizeToClass 1) ∧
    ((16321 : Nat) ≤ 1 →
      do_alloc_route 1 = AllocRoute.large ((1 + 63) / 64 * 64))) :=
  ⟨by decide, C7_do_alloc_routing initGState 1 GReach.init (by decide)⟩

end Plsalloc
